import Mathlib

/-!
Verification of the Bin Packing repository (`Algoritmos.py`, `Genetico.py`).

The Python source is embedded shallowly:
* item sizes and capacities are natural numbers (Python ints; all inputs
  of interest are non-negative),
* `float('inf')` (the initial incumbent of the exact solver) is modelled
  as `none : Option Nat`,
* `math.ceil(s / c)` on integer data is modelled exactly as
  `(s + c - 1) / c` (natural division),
* code that can raise a Python exception returns `Option`,
* the global `random` generator is modelled as an explicit stream of
  naturals threaded through the genetic algorithm.
-/

namespace BinPacking

/-- Embedding of `minimo_teorico` (Algoritmos.py): `ceil(sum / capacidad)`. -/
def minimo_teorico (capacidad : Nat) (lista_de_objetos : List Nat) : Nat :=
  (lista_de_objetos.sum + capacidad - 1) / capacidad

/-- Loop of `next_fit`: `cur` is the currently open (last) bin, the
remaining objects are placed one by one. -/
def nextFitGo (capacidad : Nat) (cur : List Nat) : List Nat → List (List Nat)
  | [] => [cur]
  | objeto :: resto =>
      if cur.sum + objeto ≤ capacidad then nextFitGo capacidad (cur ++ [objeto]) resto
      else cur :: nextFitGo capacidad [objeto] resto

/-- Embedding of `next_fit` (Algoritmos.py). -/
def next_fit (capacidad : Nat) (lista_de_objetos : List Nat) : Nat × List (List Nat) :=
  match lista_de_objetos with
  | [] => (0, [])
  | objeto :: resto =>
      let cajas := nextFitGo capacidad [objeto] resto
      (cajas.length, cajas)

/-- Inner loop of `first_fit`: place `objeto` into the first bin where it
fits; `none` when it fits nowhere. -/
def colocar_primera (capacidad objeto : Nat) : List (List Nat) → Option (List (List Nat))
  | [] => none
  | caja :: resto =>
      if caja.sum + objeto ≤ capacidad then some ((caja ++ [objeto]) :: resto)
      else
        match colocar_primera capacidad objeto resto with
        | some resto2 => some (caja :: resto2)
        | none => none

/-- One step of `first_fit`: place the object in the first bin where it
fits, otherwise open a new bin. -/
def firstFitStep (capacidad : Nat) (cajas : List (List Nat)) (objeto : Nat) :
    List (List Nat) :=
  match colocar_primera capacidad objeto cajas with
  | some cajas2 => cajas2
  | none => cajas ++ [[objeto]]

/-- Embedding of `first_fit` (Algoritmos.py). -/
def first_fit (capacidad : Nat) (lista_de_objetos : List Nat) : Nat × List (List Nat) :=
  let cajas := lista_de_objetos.foldl (firstFitStep capacidad) []
  (cajas.length, cajas)

/-- Scan of `best_fit` over the current bins: starting from
`mejor_caja = -1` (modelled `none`) and `menor_espacio = capacidad + 1`,
keep the first bin index whose remaining space fits the object and is
strictly smaller than the best so far.  Remaining space is an integer, as
in Python, so an over-full bin has negative space. -/
def bestFitScanStep (capacidad objeto : Nat) (st : Option Nat × Int)
    (p : Nat × List Nat) : Option Nat × Int :=
  let espacio_restante : Int := (capacidad : Int) - (p.2.sum : Int)
  if (objeto : Int) ≤ espacio_restante ∧ espacio_restante < st.2 then
    (some p.1, espacio_restante)
  else st

/-- Result of the `best_fit` scan: the chosen bin index, if any. -/
def bestFitChoose (capacidad objeto : Nat) (cajas : List (List Nat)) : Option Nat :=
  (cajas.enum.foldl (bestFitScanStep capacidad objeto)
    (none, (capacidad : Int) + 1)).1

/-- Appending an object to the bin at position `i` (the `caja.append`
of the Python code). -/
def insertAt (cajas : List (List Nat)) (i : Nat) (objeto : Nat) : List (List Nat) :=
  cajas.set i (cajas.getD i [] ++ [objeto])

/-- One step of `best_fit`: put the object in the chosen bin, or open a
new one. -/
def bestFitStep (capacidad : Nat) (cajas : List (List Nat)) (objeto : Nat) :
    List (List Nat) :=
  match bestFitChoose capacidad objeto cajas with
  | some i => insertAt cajas i objeto
  | none => cajas ++ [[objeto]]

/-- Embedding of `best_fit` (Algoritmos.py). -/
def best_fit (capacidad : Nat) (lista_de_objetos : List Nat) : Nat × List (List Nat) :=
  let cajas := lista_de_objetos.foldl (bestFitStep capacidad) []
  (cajas.length, cajas)

/-- Python's `sorted(lista, reverse=True)` on a list of integers. -/
def sortDesc (lista : List Nat) : List Nat :=
  lista.mergeSort (fun a b => decide (b ≤ a))

/-- Embedding of `first_fit_decreasing` (Algoritmos.py). -/
def first_fit_decreasing (capacidad : Nat) (lista_de_objetos : List Nat) :
    Nat × List (List Nat) :=
  first_fit capacidad (sortDesc lista_de_objetos)

/-- Embedding of `best_fit_decreasing` (Algoritmos.py). -/
def best_fit_decreasing (capacidad : Nat) (lista_de_objetos : List Nat) :
    Nat × List (List Nat) :=
  best_fit capacidad (sortDesc lista_de_objetos)

/-- Incumbent of the exact solver: `mejor_num_cajas` starts at
`float('inf')`, modelled as `none`. -/
structure Mejor where
  num_cajas : Option Nat
  cajas : List (List Nat)
deriving Repr, DecidableEq

/-- Python comparison `k < mejor_num_cajas` where the right side may be
`float('inf')`. -/
def ltInf (k : Nat) : Option Nat → Bool
  | none => true
  | some m => k < m

/-- Python comparison `k >= mejor_num_cajas` where the right side may be
`float('inf')`. -/
def geInf (k : Nat) : Option Nat → Bool
  | none => false
  | some m => m ≤ k

/-- Python guard `len(cajas_actuales) < mejor_num_cajas - 1` (true when
the incumbent is infinite). -/
def nuevaCajaPermitida (len : Nat) : Option Nat → Bool
  | none => true
  | some m => len < m - 1

/-- Embedding of `calcular_lower_bound` (Algoritmos.py):
`max(num_cajas_usadas, ceil(peso_restante / capacidad))`. -/
def calcular_lower_bound (capacidad num_cajas_usadas peso_restante : Nat) : Nat :=
  max num_cajas_usadas ((peso_restante + capacidad - 1) / capacidad)

/-- The `for i, caja in enumerate(cajas_actuales)` loop of
`branch_and_bound`: for each index in `is`, if the object fits in that
bin, recurse on the packing with the object placed there, threading the
incumbent. -/
def bnbCajas (capacidad objeto : Nat) (recurse : List (List Nat) → Mejor → Mejor)
    (cajas : List (List Nat)) : List Nat → Mejor → Mejor
  | [], mejor => mejor
  | i :: is, mejor =>
      let mejor2 :=
        if (cajas.getD i []).sum + objeto ≤ capacidad then
          recurse (insertAt cajas i objeto) mejor
        else mejor
      bnbCajas capacidad objeto recurse cajas is mejor2

/-- Embedding of the recursive `branch_and_bound` of `resultado_optimo`
(Algoritmos.py).  The list argument is the suffix
`lista_de_objetos[indice:]` of still unplaced objects; the incumbent is
threaded instead of mutated. -/
def branch_and_bound (capacidad : Nat) :
    List Nat → List (List Nat) → Nat → Mejor → Mejor
  | [], cajas, _, mejor =>
      if ltInf cajas.length mejor.num_cajas then ⟨some cajas.length, cajas⟩ else mejor
  | objeto :: resto, cajas, peso_restante, mejor =>
      if geInf (calcular_lower_bound capacidad cajas.length peso_restante)
          mejor.num_cajas then
        mejor
      else
        let mejor1 := bnbCajas capacidad objeto
          (fun cj m => branch_and_bound capacidad resto cj (peso_restante - objeto) m)
          cajas (List.range cajas.length) mejor
        if nuevaCajaPermitida cajas.length mejor1.num_cajas then
          branch_and_bound capacidad resto (cajas ++ [[objeto]])
            (peso_restante - objeto) mejor1
        else mejor1

/-- Tail of one `branch_and_bound` call after the loop over existing
bins: try a new bin when the guard `len(cajas) < mejor - 1` allows it. -/
def branchStep (capacidad objeto : Nat) (resto : List Nat)
    (cajas : List (List Nat)) (peso_restante : Nat) (mejor1 : Mejor) : Mejor :=
  if nuevaCajaPermitida cajas.length mejor1.num_cajas then
    branch_and_bound capacidad resto (cajas ++ [[objeto]])
      (peso_restante - objeto) mejor1
  else mejor1

/-- Embedding of `resultado_optimo` (Algoritmos.py). -/
def resultado_optimo (capacidad : Nat) (lista_de_objetos : List Nat) :
    Option Nat × List (List Nat) :=
  let mejor := branch_and_bound capacidad lista_de_objetos [] lista_de_objetos.sum
    ⟨none, []⟩
  (mejor.num_cajas, mejor.cajas)

/-! The genetic algorithm of `Genetico.py`.  Python's global Mersenne
Twister is modelled as an injectable stream of naturals (the spec's §9
design note asks for exactly this): `seq` is the stream and `pos` the
number of values already consumed.  `random.seed` then corresponds to
choosing the stream. -/

/-- Explicit random source: a stream of naturals and a cursor. -/
structure Rng where
  seq : Nat → Nat
  pos : Nat

/-- Draw the next raw value from the stream. -/
def Rng.next (r : Rng) : Nat × Rng :=
  (r.seq r.pos, ⟨r.seq, r.pos + 1⟩)

/-- Python `random.randint(a, b)` for `a ≤ b`: a value in `[a, b]`. -/
def randint (a b : Nat) (r : Rng) : Nat × Rng :=
  let (v, r') := r.next
  (a + v % (b + 1 - a), r')

/-- Python `random.randint(a, b)` on integer bounds; raises
(`none`) when the range `[a, b]` is empty. -/
def randintO (a b : Int) (r : Rng) : Option (Int × Rng) :=
  if a ≤ b then
    let (v, r') := r.next
    some (a + (v : Int) % (b + 1 - a), r')
  else none

/-- Python `random.random()`: a value `v / 2^53` in `[0, 1)`, matching
the support of the CPython generator. -/
def randomUnit (r : Rng) : Rat × Rng :=
  let (v, r') := r.next
  (((v % 2 ^ 53 : Nat) : Rat) / 2 ^ 53, r')

/-- First-appearance deduplication: the distinct values of a list in
order of first appearance (the `orden_ids` loop of `decodificar_bins`;
also `len(set(v))` is the length of this list). -/
def dedupFirst (l : List Nat) : List Nat :=
  l.foldl (fun acc b => if b ∈ acc then acc else acc ++ [b]) []

/-- Embedding of `decodificar_bins` (Genetico.py): group the items by
their bin label, bins ordered by first appearance of the label, items
inside a bin in input order. -/
def decodificar_bins (solution : List Nat) (items : List Nat) : List (List Nat) :=
  (dedupFirst solution).map
    (fun b => ((solution.zip items).filter (fun p => decide (p.1 = b))).map Prod.snd)

/-- Total size assigned to the bin label `b` by `solution`. -/
def binSumFor (solution items : List Nat) (b : Nat) : Nat :=
  (((solution.zip items).filter (fun p => decide (p.1 = b))).map Prod.snd).sum

/-- Embedding of `fitness` (Genetico.py): number of used bins plus ten
times the total overflow (`max(0, w - capacidad)` is natural
subtraction). -/
def fitness (solution : List Nat) (items : List Nat) (capacidad : Nat) : Nat :=
  let keys := dedupFirst solution
  keys.length + (keys.map (fun b => binSumFor solution items b - capacidad)).sum * 10

/-- Total overflow of an assignment vector (the penalty part of
`fitness` before the factor 10). -/
def totalOverflow (solution items : List Nat) (capacidad : Nat) : Nat :=
  ((dedupFirst solution).map (fun b => binSumFor solution items b - capacidad)).sum

/-- One random individual: `n_items` labels drawn in `[0, n_items-1]`
(no draw happens when the vector is empty, as in the Python list
comprehension). -/
def genIndividual (n_items : Nat) : Nat → Rng → List Nat × Rng
  | 0, r => ([], r)
  | k + 1, r =>
      let (v, r1) := randint 0 (n_items - 1) r
      let (resto, r2) := genIndividual n_items k r1
      (v :: resto, r2)

/-- Embedding of `generate_population` (Genetico.py). -/
def generate_population (n_items : Nat) : Nat → Rng → List (List Nat) × Rng
  | 0, r => ([], r)
  | k + 1, r =>
      let (ind, r1) := genIndividual n_items n_items r
      let (resto, r2) := generate_population n_items k r1
      (ind :: resto, r2)

/-- Sampling loop of `random.sample`: repeatedly pick a position of the
remaining list (assumes `k ≤ l.length`). -/
def sampleGo : Nat → List (List Nat) → Rng → List (List Nat) × Rng
  | 0, _, r => ([], r)
  | k + 1, l, r =>
      let (v, r1) := r.next
      let i := v % l.length
      let (resto, r2) := sampleGo k (l.eraseIdx i) r1
      (l.getD i [] :: resto, r2)

/-- Python `random.sample(l, k)`: `k` distinct positions without
replacement; raises (`none`) when `k` exceeds the population size. -/
def sample (l : List (List Nat)) (k : Nat) (r : Rng) :
    Option (List (List Nat) × Rng) :=
  if k ≤ l.length then some (sampleGo k l r) else none

/-- Python `min(l, key=lambda s: fitness(...))`: first element with the
smallest fitness; `none` on the empty list (Python raises). -/
def minByFitness (items : List Nat) (capacidad : Nat) :
    List (List Nat) → Option (List Nat)
  | [] => none
  | x :: xs =>
      some (xs.foldl
        (fun b s => if fitness s items capacidad < fitness b items capacidad then s else b)
        x)

/-- Embedding of `selection` (Genetico.py): tournament of size 3. -/
def selection (pop : List (List Nat)) (items : List Nat) (capacidad : Nat)
    (r : Rng) : Option (List Nat × Rng) := do
  let (contenders, r1) ← sample pop 3 r
  let m ← minByFitness items capacidad contenders
  some (m, r1)

/-- Embedding of `crossover` (Genetico.py): vectors of length `< 2` are
returned unchanged; otherwise a cut point is drawn from
`randint(1, n - 2)` (which raises for `n = 2`) and the tails are
swapped. -/
def crossover (parent1 parent2 : List Nat) (r : Rng) :
    Option ((List Nat × List Nat) × Rng) :=
  if parent1.length < 2 then some ((parent1, parent2), r)
  else do
    let (point, r1) ← randintO 1 ((parent1.length : Int) - 2) r
    let pt := point.toNat
    some ((parent1.take pt ++ parent2.drop pt, parent2.take pt ++ parent1.drop pt), r1)

/-- Embedding of `mutate` (Genetico.py): with probability
`mutation_rate` reassign one random position to a random label;
`randint(0, -1)` on the empty vector raises (`none`). -/
def mutate (solution : List Nat) (mutation_rate : Rat) (r : Rng) :
    Option (List Nat × Rng) :=
  let (u, r1) := randomUnit r
  if u < mutation_rate then do
    let (idx, r2) ← randintO 0 ((solution.length : Int) - 1) r1
    let (v, r3) ← randintO 0 ((solution.length : Int) - 1) r2
    some (solution.set idx.toNat v.toNat, r3)
  else some (solution, r1)

/-- The `while len(new_population) < population_size` loop of
`genetic_algorithm_bpp`; `need` is the number of slots still to fill.
After the first child, the second is added only if a slot remains. -/
def reproduce (pop : List (List Nat)) (items : List Nat) (capacidad : Nat)
    (mutation_rate : Rat) : Nat → List (List Nat) → Rng →
    Option (List (List Nat) × Rng)
  | 0, acc, r => some (acc, r)
  | need + 1, acc, r => do
      let (p1, r1) ← selection pop items capacidad r
      let (p2, r2) ← selection pop items capacidad r1
      let (c, r3) ← crossover p1 p2 r2
      let (m1, r4) ← mutate c.1 mutation_rate r3
      match need with
      | 0 => some (acc ++ [m1], r4)
      | need2 + 1 => do
          let (m2, r5) ← mutate c.2 mutation_rate r4
          reproduce pop items capacidad mutation_rate need2 (acc ++ [m1] ++ [m2]) r5

/-- Generation loop of `genetic_algorithm_bpp`.  State:
remaining generations, population, global best (`best_overall`) and its
bin count, `last_best_bins`, `gens_without_change`, history.  Returns
the final population, global best and history. -/
def gaLoop (items : List Nat) (capacidad population_size : Nat)
    (mutation_rate : Rat) (patience_no_change : Nat) :
    Nat → List (List Nat) → List Nat → Nat → Option Nat → Nat → List Nat → Rng →
    Option (List (List Nat) × List Nat × List Nat × Rng)
  | 0, pop, best_overall, _, _, _, hist, r => some (pop, best_overall, hist, r)
  | g + 1, pop, best_overall, best_bins_overall, last_best_bins,
      gens_without_change, hist, r => do
      let elite ← minByFitness items capacidad pop
      let (pop2, r1) ← reproduce pop items capacidad mutation_rate
        (population_size - 1) [elite] r
      let best_gen ← minByFitness items capacidad pop2
      let best_bins_gen := (dedupFirst best_gen).length
      let hist2 := hist ++ [best_bins_gen]
      let mejora := best_bins_gen < best_bins_overall ∨
        (best_bins_gen = best_bins_overall ∧
          fitness best_gen items capacidad < fitness best_overall items capacidad)
      let bo2 := if mejora then best_gen else best_overall
      let bbo2 := if mejora then best_bins_gen else best_bins_overall
      if last_best_bins = some best_bins_gen then
        if patience_no_change ≤ gens_without_change + 1 then some (pop2, bo2, hist2, r1)
        else
          gaLoop items capacidad population_size mutation_rate patience_no_change
            g pop2 bo2 bbo2 (some best_bins_gen) (gens_without_change + 1) hist2 r1
      else
        gaLoop items capacidad population_size mutation_rate patience_no_change
          g pop2 bo2 bbo2 (some best_bins_gen) 0 hist2 r1

/-- Embedding of `genetic_algorithm_bpp` (Genetico.py).  The result is
`(num_cajas, configuracion_de_cajas, mejor_solution_vector,
historia_bins_por_gen)`; `none` models a raised exception. -/
def genetic_algorithm_bpp (items : List Nat) (capacidad : Nat)
    (population_size generations : Nat) (mutation_rate : Rat)
    (patience_no_change : Nat) (r : Rng) :
    Option (Nat × List (List Nat) × List Nat × List Nat) := do
  let n := items.length
  let (pop, r1) := generate_population n population_size r
  let best_overall ← minByFitness items capacidad pop
  let best_bins_overall := (dedupFirst best_overall).length
  let (popF, boF, hist, _) ← gaLoop items capacidad population_size mutation_rate
    patience_no_change generations pop best_overall best_bins_overall none 0 [] r1
  let best ← minByFitness items capacidad (boF :: popF)
  let bins_list := decodificar_bins best items
  some (bins_list.length, bins_list, best, hist)

/-! Specification-side notions used by the claims. -/

/-- A valid packing of `objetos`: the bins partition the input items (as
a multiset) and no bin exceeds the capacity. -/
def EsEmpaque (capacidad : Nat) (objetos : List Nat) (P : List (List Nat)) : Prop :=
  P.flatten.Perm objetos ∧ ∀ caja ∈ P, caja.sum ≤ capacidad

/-- The states reachable by the branching of `branch_and_bound` (without
any pruning): from the partial packing `cajas`, place the remaining
objects one by one, each either into an existing bin with room or into a
fresh bin at the end. -/
inductive Ext (capacidad : Nat) : List (List Nat) → List Nat → List (List Nat) → Prop
  | nil (cajas : List (List Nat)) : Ext capacidad cajas [] cajas
  | put (cajas : List (List Nat)) (objeto : Nat) (resto : List Nat)
      (Q : List (List Nat)) (i : Nat) (hi : i < cajas.length)
      (hfit : (cajas.getD i []).sum + objeto ≤ capacidad)
      (h : Ext capacidad (insertAt cajas i objeto) resto Q) :
      Ext capacidad cajas (objeto :: resto) Q
  | new (cajas : List (List Nat)) (objeto : Nat) (resto : List Nat)
      (Q : List (List Nat))
      (h : Ext capacidad (cajas ++ [[objeto]]) resto Q) :
      Ext capacidad cajas (objeto :: resto) Q

/-- Order on incumbents: `none` is `float('inf')`. -/
def onumLe : Option Nat → Option Nat → Prop
  | _, none => True
  | none, some _ => False
  | some a, some b => a ≤ b

/-- Soundness of an incumbent for input `objetos`: when finite, it
records a packing of `objetos` of exactly that many bins, whose bins
respect the capacity whenever every item fits in a bin on its own. -/
def MejorInv (capacidad : Nat) (objetos : List Nat) (m : Mejor) : Prop :=
  ∀ k, m.num_cajas = some k →
    m.cajas.length = k ∧ m.cajas.flatten.Perm objetos ∧
      ((∀ o ∈ objetos, o ≤ capacidad) → ∀ caja ∈ m.cajas, caja.sum ≤ capacidad)

/-- Invariant of a partial search state of `branch_and_bound`. -/
def EstadoInv (capacidad : Nat) (objetos resto : List Nat)
    (cajas : List (List Nat)) : Prop :=
  (cajas.flatten ++ resto).Perm objetos ∧
    ((∀ o ∈ objetos, o ≤ capacidad) → ∀ caja ∈ cajas, caja.sum ≤ capacidad)

/-- The best-of-generation value was literally identical on the
`p + 1` consecutive generations ending at index `t` of the history. -/
def Plateau (hist : List Nat) (p t : Nat) : Prop :=
  p ≤ t ∧ t < hist.length ∧
    ∀ j, t - p ≤ j → j < t → hist.getD j 0 = hist.getD t 0

/-- Invariant of the early-stopping bookkeeping at the head of each
generation: no stopping window has occurred in the recorded history,
and `(last_best_bins, gens_without_change)` describe the maximal
constant suffix of the history (its length is `cnt + 1`, and the entry
just before it, when it exists, differs). -/
def EsState (patience : Nat) (hist : List Nat) (last : Option Nat) (cnt : Nat) : Prop :=
  (∀ t, t < hist.length → ¬ Plateau hist patience t) ∧
  (last = none → hist = [] ∧ cnt = 0) ∧
  ∀ v, last = some v →
    cnt < patience ∧ cnt + 1 ≤ hist.length ∧
    (∀ j, hist.length - (cnt + 1) ≤ j → j < hist.length → hist.getD j 0 = v) ∧
    (cnt + 1 < hist.length → hist.getD (hist.length - (cnt + 2)) 0 ≠ v)

/-- A concrete random stream (all raw draws are `0`), used for explicit
counterexample runs. -/
def r0 : Rng := ⟨fun _ => 0, 0⟩

/-! General helper lemmas. -/

/-- Invariance of a predicate under `List.foldl`. -/
theorem foldl_inv {α β : Type} (f : β → α → β) (P : β → Prop) :
    ∀ (l : List α) (init : β), P init → (∀ b a, a ∈ l → P b → P (f b a)) →
      P (l.foldl f init) := by
  intro l
  induction l with
  | nil => intro init h _; simpa using h
  | cons a l ih =>
      intro init h hf
      simp only [List.foldl_cons]
      exact ih (f init a) (hf init a (by simp) h)
        (fun b x hx hb => hf b x (by simp [hx]) hb)

/-- Concatenating the bins adds up their sums. -/
theorem sum_flatten_eq : ∀ P : List (List Nat), P.flatten.sum = (P.map List.sum).sum := by
  intro P
  induction P with
  | nil => rfl
  | cons c cs ih => simp [ih]

/-- Ceiling bound: `ceil(s / c) ≤ k` whenever `s ≤ k * c`. -/
theorem ceil_div_le {c s k : Nat} (hc : 0 < c) (h : s ≤ k * c) :
    (s + c - 1) / c ≤ k := by
  have hs : (k + 1) * c = k * c + c := by ring
  have h2 : s + c - 1 < (k + 1) * c := by omega
  have := (Nat.div_lt_iff_lt_mul hc).mpr h2
  omega

/-- Ceiling bound: if the total fits in `k` bins of size `capacidad`,
the theoretical minimum is at most `k`. -/
theorem minimo_teorico_le {capacidad k : Nat} (hC : 0 < capacidad)
    (objetos : List Nat) (h : objetos.sum ≤ k * capacidad) :
    minimo_teorico capacidad objetos ≤ k :=
  ceil_div_le hC h

/-- Any packing whose bins respect the capacity uses at least the
theoretical minimum number of bins. -/
theorem empaque_lower_bound {capacidad : Nat} {objetos : List Nat}
    {P : List (List Nat)} (hC : 0 < capacidad)
    (hperm : P.flatten.Perm objetos) (hcaps : ∀ caja ∈ P, caja.sum ≤ capacidad) :
    minimo_teorico capacidad objetos ≤ P.length := by
  apply minimo_teorico_le hC
  have hsum : objetos.sum = (P.map List.sum).sum := by
    rw [← hperm.sum_eq, sum_flatten_eq]
  have hle : (P.map List.sum).sum ≤ (P.map List.sum).length • capacidad :=
    List.sum_le_card_nsmul _ _ (by
      intro x hx
      rcases List.mem_map.1 hx with ⟨caja, hc, rfl⟩
      exact hcaps caja hc)
  simpa [hsum, smul_eq_mul] using hle

/-- Accumulating one object per step accumulates the whole input. -/
theorem foldl_pack_flatten (step : List (List Nat) → Nat → List (List Nat))
    (hstep : ∀ cj o, (step cj o).flatten.Perm (cj.flatten ++ [o])) :
    ∀ (objetos : List Nat) (cajas : List (List Nat)),
      (objetos.foldl step cajas).flatten.Perm (cajas.flatten ++ objetos) := by
  intro objetos
  induction objetos with
  | nil => intro cajas; simp
  | cons o resto ih =>
      intro cajas
      simp only [List.foldl_cons]
      refine (ih (step cajas o)).trans ?_
      have h1 : ((step cajas o).flatten ++ resto).Perm ((cajas.flatten ++ [o]) ++ resto) :=
        (hstep cajas o).append_right resto
      have h2 : (cajas.flatten ++ [o]) ++ resto = cajas.flatten ++ (o :: resto) := by simp
      exact h2 ▸ h1

/-! Properties of `insertAt`. -/

theorem insertAt_length (cajas : List (List Nat)) (i objeto : Nat) :
    (insertAt cajas i objeto).length = cajas.length := by
  simp [insertAt]

theorem insertAt_flatten :
    ∀ (cajas : List (List Nat)) (i : Nat) (objeto : Nat), i < cajas.length →
      (insertAt cajas i objeto).flatten.Perm (cajas.flatten ++ [objeto]) := by
  intro cajas
  induction cajas with
  | nil => intro i o h; simp at h
  | cons c cs ih =>
      intro i o h
      cases i with
      | zero =>
          simp only [insertAt, List.getD_cons_zero, List.set_cons_zero,
            List.flatten_cons]
          have h1 : ([o] ++ cs.flatten).Perm (cs.flatten ++ [o]) :=
            List.perm_append_comm
          have h2 := h1.append_left c
          simpa [List.append_assoc] using h2
      | succ i =>
          have h' : i < cs.length := by simpa using h
          have h1 : ((insertAt cs i o).flatten).Perm (cs.flatten ++ [o]) := ih i o h'
          have h2 : insertAt (c :: cs) (i + 1) o = c :: insertAt cs i o := by
            simp [insertAt]
          rw [h2]
          simp only [List.flatten_cons]
          have h3 := h1.append_left c
          simpa [List.append_assoc] using h3

theorem insertAt_caps {capacidad : Nat} {cajas : List (List Nat)} {i objeto : Nat}
    (hfit : (cajas.getD i []).sum + objeto ≤ capacidad)
    (hcaps : ∀ caja ∈ cajas, caja.sum ≤ capacidad) :
    ∀ caja ∈ insertAt cajas i objeto, caja.sum ≤ capacidad := by
  intro caja hc
  rcases List.mem_or_eq_of_mem_set hc with h | rfl
  · exact hcaps caja h
  · simpa using hfit

/-! Properties of `next_fit`. -/

theorem nextFitGo_flatten (capacidad : Nat) :
    ∀ (resto cur : List Nat), (nextFitGo capacidad cur resto).flatten = cur ++ resto := by
  intro resto
  induction resto with
  | nil => intro cur; simp [nextFitGo]
  | cons o resto ih =>
      intro cur
      by_cases h : cur.sum + o ≤ capacidad
      · simp [nextFitGo, h, ih, List.append_assoc]
      · simp [nextFitGo, h, ih]

theorem nextFitGo_caps (capacidad : Nat) :
    ∀ (resto cur : List Nat), cur.sum ≤ capacidad → (∀ o ∈ resto, o ≤ capacidad) →
      ∀ caja ∈ nextFitGo capacidad cur resto, caja.sum ≤ capacidad := by
  intro resto
  induction resto with
  | nil => intro cur hcur _; simpa [nextFitGo] using hcur
  | cons o resto ih =>
      intro cur hcur hresto caja hc
      by_cases h : cur.sum + o ≤ capacidad
      · rw [nextFitGo, if_pos h] at hc
        exact ih (cur ++ [o]) (by simpa using h)
          (fun x hx => hresto x (by simp [hx])) caja hc
      · rw [nextFitGo, if_neg h] at hc
        rcases List.mem_cons.1 hc with rfl | hc2
        · exact hcur
        · exact ih [o] (by simpa using hresto o (by simp))
            (fun x hx => hresto x (by simp [hx])) caja hc2

theorem next_fit_flatten (capacidad : Nat) (objetos : List Nat) :
    (next_fit capacidad objetos).2.flatten = objetos := by
  cases objetos with
  | nil => rfl
  | cons o resto => simpa [next_fit] using nextFitGo_flatten capacidad resto [o]

theorem next_fit_caps {capacidad : Nat} {objetos : List Nat}
    (hcap : ∀ o ∈ objetos, o ≤ capacidad) :
    ∀ caja ∈ (next_fit capacidad objetos).2, caja.sum ≤ capacidad := by
  cases objetos with
  | nil => intro caja hc; simp [next_fit] at hc
  | cons o resto =>
      exact nextFitGo_caps capacidad resto [o] (by simpa using hcap o (by simp))
        (fun x hx => hcap x (by simp [hx]))

/-! Properties of `first_fit`. -/

theorem colocar_primera_flatten (capacidad objeto : Nat) :
    ∀ (cajas cajas2 : List (List Nat)),
      colocar_primera capacidad objeto cajas = some cajas2 →
      cajas2.flatten.Perm (cajas.flatten ++ [objeto]) := by
  intro cajas
  induction cajas with
  | nil => intro cajas2 h; simp [colocar_primera] at h
  | cons caja resto ih =>
      intro cajas2 h
      by_cases hfit : caja.sum + objeto ≤ capacidad
      · rw [colocar_primera, if_pos hfit] at h
        cases h
        simp only [List.flatten_cons]
        have h1 : ([objeto] ++ resto.flatten).Perm (resto.flatten ++ [objeto]) :=
          List.perm_append_comm
        have h2 := h1.append_left caja
        simpa [List.append_assoc] using h2
      · rw [colocar_primera, if_neg hfit] at h
        cases he : colocar_primera capacidad objeto resto with
        | none => rw [he] at h; exact absurd h (by simp)
        | some resto2 =>
            rw [he] at h
            cases h
            simp only [List.flatten_cons]
            have h2 := (ih resto2 he).append_left caja
            simpa [List.append_assoc] using h2

theorem colocar_primera_caps (capacidad objeto : Nat) :
    ∀ (cajas cajas2 : List (List Nat)),
      colocar_primera capacidad objeto cajas = some cajas2 →
      (∀ caja ∈ cajas, caja.sum ≤ capacidad) →
      ∀ caja ∈ cajas2, caja.sum ≤ capacidad := by
  intro cajas
  induction cajas with
  | nil => intro cajas2 h; simp [colocar_primera] at h
  | cons caja resto ih =>
      intro cajas2 h hcaps
      by_cases hfit : caja.sum + objeto ≤ capacidad
      · rw [colocar_primera, if_pos hfit] at h
        cases h
        intro c hc
        rcases List.mem_cons.1 hc with rfl | hc2
        · simpa using hfit
        · exact hcaps c (by simp [hc2])
      · rw [colocar_primera, if_neg hfit] at h
        cases he : colocar_primera capacidad objeto resto with
        | none => rw [he] at h; exact absurd h (by simp)
        | some resto2 =>
            rw [he] at h
            cases h
            intro c hc
            rcases List.mem_cons.1 hc with rfl | hc2
            · exact hcaps c (by simp)
            · exact ih resto2 he (fun x hx => hcaps x (by simp [hx])) c hc2

theorem firstFitStep_flatten (capacidad : Nat) (cajas : List (List Nat)) (objeto : Nat) :
    (firstFitStep capacidad cajas objeto).flatten.Perm (cajas.flatten ++ [objeto]) := by
  unfold firstFitStep
  cases he : colocar_primera capacidad objeto cajas with
  | some cajas2 => exact colocar_primera_flatten capacidad objeto cajas cajas2 he
  | none => simp

theorem firstFitStep_caps {capacidad : Nat} {cajas : List (List Nat)} {objeto : Nat}
    (ho : objeto ≤ capacidad) (hcaps : ∀ caja ∈ cajas, caja.sum ≤ capacidad) :
    ∀ caja ∈ firstFitStep capacidad cajas objeto, caja.sum ≤ capacidad := by
  unfold firstFitStep
  cases he : colocar_primera capacidad objeto cajas with
  | some cajas2 => exact colocar_primera_caps capacidad objeto cajas cajas2 he hcaps
  | none =>
      intro caja hc
      rcases List.mem_append.1 hc with h | h
      · exact hcaps caja h
      · simp at h
        simpa [h] using ho

theorem first_fit_flatten (capacidad : Nat) (objetos : List Nat) :
    (first_fit capacidad objetos).2.flatten.Perm objetos := by
  have := foldl_pack_flatten (firstFitStep capacidad)
    (fun cj o => firstFitStep_flatten capacidad cj o) objetos []
  simpa [first_fit] using this

theorem first_fit_caps {capacidad : Nat} {objetos : List Nat}
    (hcap : ∀ o ∈ objetos, o ≤ capacidad) :
    ∀ caja ∈ (first_fit capacidad objetos).2, caja.sum ≤ capacidad := by
  unfold first_fit
  exact foldl_inv (firstFitStep capacidad)
    (fun cajas => ∀ caja ∈ cajas, caja.sum ≤ capacidad) objetos []
    (by simp)
    (fun cajas o ho hc => firstFitStep_caps (hcap o ho) hc)

/-! Properties of `best_fit`. -/

theorem bestFitChoose_spec {capacidad objeto : Nat} {cajas : List (List Nat)} {i : Nat}
    (h : bestFitChoose capacidad objeto cajas = some i) :
    i < cajas.length ∧ (cajas.getD i []).sum + objeto ≤ capacidad := by
  unfold bestFitChoose at h
  have main := foldl_inv (bestFitScanStep capacidad objeto)
    (fun st => ∀ j, st.1 = some j →
      j < cajas.length ∧ (cajas.getD j []).sum + objeto ≤ capacidad)
    cajas.enum (none, (capacidad : Int) + 1)
    (by intro j hj; simp at hj)
    (by
      intro st p hp hst j hj
      have hmem : cajas[p.1]? = some p.2 := List.mem_enum_iff_getElem?.1 hp
      have hlt : p.1 < cajas.length := by
        rcases List.getElem?_eq_some.1 hmem with ⟨hl, _⟩
        exact hl
      have hget : cajas.getD p.1 [] = p.2 := by
        simp [List.getD_eq_getElem?_getD, hmem]
      unfold bestFitScanStep at hj
      by_cases hcond : (objeto : Int) ≤ (capacidad : Int) - (p.2.sum : Int) ∧
          (capacidad : Int) - (p.2.sum : Int) < st.2
      · rw [if_pos hcond] at hj
        simp at hj
        subst hj
        refine ⟨hlt, ?_⟩
        rw [hget]
        have := hcond.1
        omega
      · rw [if_neg hcond] at hj
        exact hst j hj)
  exact main i h

theorem bestFitStep_flatten (capacidad : Nat) (cajas : List (List Nat)) (objeto : Nat) :
    (bestFitStep capacidad cajas objeto).flatten.Perm (cajas.flatten ++ [objeto]) := by
  unfold bestFitStep
  cases he : bestFitChoose capacidad objeto cajas with
  | some i => exact insertAt_flatten cajas i objeto (bestFitChoose_spec he).1
  | none => simp

theorem bestFitStep_caps {capacidad : Nat} {cajas : List (List Nat)} {objeto : Nat}
    (ho : objeto ≤ capacidad) (hcaps : ∀ caja ∈ cajas, caja.sum ≤ capacidad) :
    ∀ caja ∈ bestFitStep capacidad cajas objeto, caja.sum ≤ capacidad := by
  unfold bestFitStep
  cases he : bestFitChoose capacidad objeto cajas with
  | some i => exact insertAt_caps (bestFitChoose_spec he).2 hcaps
  | none =>
      intro caja hc
      rcases List.mem_append.1 hc with h | h
      · exact hcaps caja h
      · simp at h
        simpa [h] using ho

theorem best_fit_flatten (capacidad : Nat) (objetos : List Nat) :
    (best_fit capacidad objetos).2.flatten.Perm objetos := by
  have := foldl_pack_flatten (bestFitStep capacidad)
    (fun cj o => bestFitStep_flatten capacidad cj o) objetos []
  simpa [best_fit] using this

theorem best_fit_caps {capacidad : Nat} {objetos : List Nat}
    (hcap : ∀ o ∈ objetos, o ≤ capacidad) :
    ∀ caja ∈ (best_fit capacidad objetos).2, caja.sum ≤ capacidad := by
  unfold best_fit
  exact foldl_inv (bestFitStep capacidad)
    (fun cajas => ∀ caja ∈ cajas, caja.sum ≤ capacidad) objetos []
    (by simp)
    (fun cajas o ho hc => bestFitStep_caps (hcap o ho) hc)

/-! Properties of the descending sort. -/

theorem sortDesc_perm (lista : List Nat) : (sortDesc lista).Perm lista :=
  List.mergeSort_perm lista _

theorem sortDesc_of_sorted {lista : List Nat}
    (h : lista.Pairwise (fun a b => b ≤ a)) : sortDesc lista = lista := by
  apply List.mergeSort_of_sorted
  exact h.imp (fun hab => by simpa using hab)

/-! Indexing helpers for lists split around a distinguished element. -/

theorem getD_append_length {α : Type} [Inhabited α] :
    ∀ (l1 : List α) (a : α) (l2 : List α) (d : α),
      (l1 ++ a :: l2).getD l1.length d = a := by
  intro l1
  induction l1 with
  | nil => intro a l2 d; rfl
  | cons x l1 ih => intro a l2 d; simpa using ih a l2 d

theorem set_append_length {α : Type} :
    ∀ (l1 : List α) (a : α) (l2 : List α) (b : α),
      (l1 ++ a :: l2).set l1.length b = l1 ++ b :: l2 := by
  intro l1
  induction l1 with
  | nil => intro a l2 b; rfl
  | cons x l1 ih => intro a l2 b; simp [ih a l2 b]

/-- Extracting one occurrence from the middle of a concatenation, up to
permutation. -/
theorem perm_extract {o : Nat} {d : List Nat} (A B : List Nat) (ho : o ∈ d) :
    (A ++ d ++ B).Perm (o :: (A ++ d.erase o ++ B)) := by
  have hd : d.Perm (o :: d.erase o) := List.perm_cons_erase ho
  have h1 : (A ++ d ++ B).Perm (A ++ (o :: d.erase o) ++ B) :=
    ((hd.append_left A).append_right B)
  refine h1.trans ?_
  have h2 : A ++ (o :: d.erase o) ++ B = A ++ o :: (d.erase o ++ B) := by
    simp [List.append_assoc]
  rw [h2]
  have h3 : (A ++ o :: (d.erase o ++ B)).Perm (o :: (A ++ (d.erase o ++ B))) :=
    List.perm_middle
  refine h3.trans ?_
  simp [List.append_assoc]

/-! Properties of the reachability relation `Ext`. -/

theorem Ext.length_le {capacidad : Nat} {cajas resto Q}
    (h : Ext capacidad cajas resto Q) : cajas.length ≤ Q.length := by
  induction h with
  | nil => exact Nat.le_refl _
  | put cajas objeto resto Q i hi hfit h ih =>
      have := insertAt_length cajas i objeto
      omega
  | new cajas objeto resto Q h ih => simp at ih; omega

theorem Ext.flatten_perm {capacidad : Nat} {cajas resto Q}
    (h : Ext capacidad cajas resto Q) :
    Q.flatten.Perm (cajas.flatten ++ resto) := by
  induction h with
  | nil => simp
  | put cajas objeto resto Q i hi hfit h ih =>
      refine ih.trans ?_
      have h1 := (insertAt_flatten cajas i objeto hi).append_right resto
      refine h1.trans ?_
      have : (cajas.flatten ++ [objeto]) ++ resto = cajas.flatten ++ objeto :: resto := by
        simp
      rw [this]
  | new cajas objeto resto Q h ih =>
      refine ih.trans ?_
      have : (cajas ++ [[objeto]]).flatten ++ resto = cajas.flatten ++ objeto :: resto := by
        simp
      rw [this]

theorem Ext.caps {capacidad : Nat} {cajas resto Q}
    (h : Ext capacidad cajas resto Q)
    (hcajas : ∀ caja ∈ cajas, caja.sum ≤ capacidad)
    (hresto : ∀ o ∈ resto, o ≤ capacidad) :
    ∀ caja ∈ Q, caja.sum ≤ capacidad := by
  induction h with
  | nil => exact hcajas
  | put cajas objeto resto Q i hi hfit h ih =>
      exact ih (insertAt_caps hfit hcajas) (fun o ho => hresto o (by simp [ho]))
  | new cajas objeto resto Q h ih =>
      refine ih ?_ (fun o ho => hresto o (by simp [ho]))
      intro caja hc
      rcases List.mem_append.1 hc with h1 | h1
      · exact hcajas caja h1
      · simp at h1
        simpa [h1] using hresto objeto (by simp)

/-- Weight bound: any completion of a state has at least
`ceil(remaining weight / capacidad)` bins. -/
theorem Ext.weight_bound {capacidad : Nat} {cajas resto Q}
    (hC : 0 < capacidad) (h : Ext capacidad cajas resto Q)
    (hcaps : ∀ caja ∈ Q, caja.sum ≤ capacidad) :
    (resto.sum + capacidad - 1) / capacidad ≤ Q.length := by
  apply ceil_div_le hC
  have h1 : Q.flatten.sum = cajas.flatten.sum + resto.sum := by
    rw [h.flatten_perm.sum_eq]
    simp
  have h2 : Q.flatten.sum ≤ Q.length * capacidad := by
    rw [sum_flatten_eq]
    have hle : (Q.map List.sum).sum ≤ (Q.map List.sum).length • capacidad :=
      List.sum_le_card_nsmul _ _ (by
        intro x hx
        rcases List.mem_map.1 hx with ⟨caja, hc, rfl⟩
        exact hcaps caja hc)
    simpa [smul_eq_mul] using hle
  omega

/-! Basic facts about the incumbent order `onumLe`. -/

theorem onumLe_refl : ∀ a : Option Nat, onumLe a a := by
  intro a
  cases a <;> simp [onumLe]

theorem onumLe_none_right : ∀ a : Option Nat, onumLe a none := by
  intro a
  cases a <;> simp [onumLe]

theorem onumLe_trans : ∀ {a b c : Option Nat}, onumLe a b → onumLe b c → onumLe a c := by
  intro a b c h1 h2
  cases a <;> cases b <;> cases c <;> simp_all [onumLe]
  omega

theorem onumLe_some_left {a : Option Nat} {k : Nat} (h : onumLe a (some k)) :
    ∃ j, a = some j ∧ j ≤ k := by
  cases a with
  | none => exact absurd h (by simp [onumLe])
  | some j => exact ⟨j, rfl, h⟩

/-! Reading the Python comparisons against a possibly infinite incumbent. -/

theorem ltInf_true {k : Nat} {a : Option Nat} (h : ltInf k a = true) :
    onumLe (some k) a := by
  cases a with
  | none => simp [onumLe]
  | some m => simp [ltInf] at h; simp [onumLe]; omega

theorem ltInf_false {k : Nat} {a : Option Nat} (h : ltInf k a = false) :
    ∃ m, a = some m ∧ m ≤ k := by
  cases a with
  | none => simp [ltInf] at h
  | some m => simp [ltInf] at h; exact ⟨m, rfl, h⟩

theorem geInf_true {k : Nat} {a : Option Nat} (h : geInf k a = true) :
    ∃ m, a = some m ∧ m ≤ k := by
  cases a with
  | none => simp [geInf] at h
  | some m => simp [geInf] at h; exact ⟨m, rfl, h⟩

theorem nuevaCajaPermitida_false {len : Nat} {a : Option Nat}
    (h : nuevaCajaPermitida len a = false) : ∃ m, a = some m ∧ m ≤ len + 1 := by
  cases a with
  | none => simp [nuevaCajaPermitida] at h
  | some m => simp [nuevaCajaPermitida] at h; exact ⟨m, rfl, by omega⟩

/-! Unfolding equations for `branch_and_bound`. -/

theorem bnb_nil_eq (capacidad : Nat) (cajas : List (List Nat)) (w : Nat) (m : Mejor) :
    branch_and_bound capacidad [] cajas w m =
      if ltInf cajas.length m.num_cajas then ⟨some cajas.length, cajas⟩ else m := by
  rw [branch_and_bound]

theorem bnb_cons_eq (capacidad objeto : Nat) (resto : List Nat)
    (cajas : List (List Nat)) (w : Nat) (m : Mejor) :
    branch_and_bound capacidad (objeto :: resto) cajas w m =
      if geInf (calcular_lower_bound capacidad cajas.length w) m.num_cajas then m
      else
        branchStep capacidad objeto resto cajas w
          (bnbCajas capacidad objeto
            (fun cj mm => branch_and_bound capacidad resto cj (w - objeto) mm)
            cajas (List.range cajas.length) m) := by
  rw [branch_and_bound, branchStep]

/-! The inner bin loop, generically over the recursive call. -/

theorem bnbCajas_mono (capacidad objeto : Nat)
    (recurse : List (List Nat) → Mejor → Mejor) (cajas : List (List Nat))
    (hrec : ∀ cj m, onumLe (recurse cj m).num_cajas m.num_cajas) :
    ∀ (is : List Nat) (m : Mejor),
      onumLe (bnbCajas capacidad objeto recurse cajas is m).num_cajas m.num_cajas := by
  intro is
  induction is with
  | nil => intro m; exact onumLe_refl _
  | cons i is ih =>
      intro m
      rw [bnbCajas]
      by_cases hfit : (cajas.getD i []).sum + objeto ≤ capacidad
      · simp only [if_pos hfit]
        exact onumLe_trans (ih _) (hrec _ m)
      · simp only [if_neg hfit]
        exact ih m

theorem bnbCajas_inv (capacidad objeto : Nat)
    (recurse : List (List Nat) → Mejor → Mejor) (cajas : List (List Nat))
    (P : Mejor → Prop)
    (hrec : ∀ i m, i < cajas.length → (cajas.getD i []).sum + objeto ≤ capacidad →
      P m → P (recurse (insertAt cajas i objeto) m)) :
    ∀ (is : List Nat) (m : Mejor), (∀ i ∈ is, i < cajas.length) → P m →
      P (bnbCajas capacidad objeto recurse cajas is m) := by
  intro is
  induction is with
  | nil => intro m _ hm; exact hm
  | cons i is ih =>
      intro m his hm
      rw [bnbCajas]
      by_cases hfit : (cajas.getD i []).sum + objeto ≤ capacidad
      · simp only [if_pos hfit]
        exact ih _ (fun j hj => his j (by simp [hj]))
          (hrec i m (his i (by simp)) hfit hm)
      · simp only [if_neg hfit]
        exact ih _ (fun j hj => his j (by simp [hj])) hm

theorem bnbCajas_cover (capacidad objeto : Nat)
    (recurse : List (List Nat) → Mejor → Mejor) (cajas : List (List Nat))
    (P : Mejor → Prop) (B : List (List Nat) → Nat → Prop)
    (hmono : ∀ cj m, onumLe (recurse cj m).num_cajas m.num_cajas)
    (hinv : ∀ i m, i < cajas.length → (cajas.getD i []).sum + objeto ≤ capacidad →
      P m → P (recurse (insertAt cajas i objeto) m))
    (hcover : ∀ i m, i < cajas.length → (cajas.getD i []).sum + objeto ≤ capacidad →
      P m → ∀ k, B (insertAt cajas i objeto) k →
        onumLe (recurse (insertAt cajas i objeto) m).num_cajas (some k)) :
    ∀ (is : List Nat) (m : Mejor), (∀ i ∈ is, i < cajas.length) → P m →
      ∀ i ∈ is, (cajas.getD i []).sum + objeto ≤ capacidad →
        ∀ k, B (insertAt cajas i objeto) k →
          onumLe (bnbCajas capacidad objeto recurse cajas is m).num_cajas (some k) := by
  intro is
  induction is with
  | nil => intro m _ _ i hi; exact absurd hi (by simp)
  | cons i0 is ih =>
      intro m his hm i hi hfit k hB
      rw [bnbCajas]
      rcases List.mem_cons.1 hi with rfl | hi2
      · simp only [if_pos hfit]
        refine onumLe_trans
          (bnbCajas_mono capacidad objeto recurse cajas hmono is _) ?_
        exact hcover i m (his i (by simp)) hfit hm k hB
      · by_cases hfit0 : (cajas.getD i0 []).sum + objeto ≤ capacidad
        · simp only [if_pos hfit0]
          exact ih _ (fun j hj => his j (by simp [hj]))
            (hinv i0 m (his i0 (by simp)) hfit0 hm) i hi2 hfit k hB
        · simp only [if_neg hfit0]
          exact ih _ (fun j hj => his j (by simp [hj])) hm i hi2 hfit k hB

/-! The incumbent only improves, and is always finite afterwards. -/

theorem branch_and_bound_mono (capacidad : Nat) :
    ∀ (resto : List Nat) (cajas : List (List Nat)) (w : Nat) (m : Mejor),
      onumLe (branch_and_bound capacidad resto cajas w m).num_cajas m.num_cajas := by
  intro resto
  induction resto with
  | nil =>
      intro cajas w m
      rw [bnb_nil_eq]
      by_cases hlt : ltInf cajas.length m.num_cajas = true
      · rw [if_pos hlt]
        exact ltInf_true hlt
      · rw [if_neg hlt]
        exact onumLe_refl _
  | cons objeto resto ih =>
      intro cajas w m
      rw [bnb_cons_eq]
      by_cases hprune : geInf (calcular_lower_bound capacidad cajas.length w)
          m.num_cajas = true
      · rw [if_pos hprune]
        exact onumLe_refl _
      · rw [if_neg hprune]
        have hmono1 : onumLe (bnbCajas capacidad objeto
            (fun cj mm => branch_and_bound capacidad resto cj (w - objeto) mm)
            cajas (List.range cajas.length) m).num_cajas m.num_cajas :=
          bnbCajas_mono capacidad objeto _ cajas
            (fun cj mm => ih cj (w - objeto) mm) _ m
        unfold branchStep
        by_cases hnew : nuevaCajaPermitida cajas.length (bnbCajas capacidad objeto
            (fun cj mm => branch_and_bound capacidad resto cj (w - objeto) mm)
            cajas (List.range cajas.length) m).num_cajas = true
        · rw [if_pos hnew]
          exact onumLe_trans (ih _ _ _) hmono1
        · rw [if_neg hnew]
          exact hmono1

theorem branch_and_bound_isSome (capacidad : Nat) :
    ∀ (resto : List Nat) (cajas : List (List Nat)) (w : Nat) (m : Mejor),
      (branch_and_bound capacidad resto cajas w m).num_cajas ≠ none := by
  intro resto
  induction resto with
  | nil =>
      intro cajas w m
      rw [bnb_nil_eq]
      by_cases hlt : ltInf cajas.length m.num_cajas = true
      · rw [if_pos hlt]
        simp
      · rw [if_neg hlt]
        rcases ltInf_false (by simpa using hlt) with ⟨mm, hmm, _⟩
        simp [hmm]
  | cons objeto resto ih =>
      intro cajas w m
      rw [bnb_cons_eq]
      by_cases hprune : geInf (calcular_lower_bound capacidad cajas.length w)
          m.num_cajas = true
      · rw [if_pos hprune]
        rcases geInf_true hprune with ⟨mm, hmm, _⟩
        simp [hmm]
      · rw [if_neg hprune]
        unfold branchStep
        by_cases hnew : nuevaCajaPermitida cajas.length (bnbCajas capacidad objeto
            (fun cj mm => branch_and_bound capacidad resto cj (w - objeto) mm)
            cajas (List.range cajas.length) m).num_cajas = true
        · rw [if_pos hnew]
          exact ih _ _ _
        · rw [if_neg hnew]
          rcases nuevaCajaPermitida_false (by simpa using hnew) with ⟨mm, hmm, _⟩
          simp [hmm]

/-! State-invariant preservation along the branching. -/

theorem estado_put {capacidad : Nat} {objetos resto : List Nat} {objeto : Nat}
    {cajas : List (List Nat)}
    (hE : EstadoInv capacidad objetos (objeto :: resto) cajas)
    {i : Nat} (hi : i < cajas.length)
    (hfit : (cajas.getD i []).sum + objeto ≤ capacidad) :
    EstadoInv capacidad objetos resto (insertAt cajas i objeto) := by
  constructor
  · have h1 := (insertAt_flatten cajas i objeto hi).append_right resto
    have h2 : (cajas.flatten ++ [objeto]) ++ resto = cajas.flatten ++ objeto :: resto := by
      simp
    rw [h2] at h1
    exact h1.trans hE.1
  · intro hcap
    exact insertAt_caps hfit (hE.2 hcap)

theorem estado_new {capacidad : Nat} {objetos resto : List Nat} {objeto : Nat}
    {cajas : List (List Nat)}
    (hE : EstadoInv capacidad objetos (objeto :: resto) cajas) :
    EstadoInv capacidad objetos resto (cajas ++ [[objeto]]) := by
  constructor
  · have h2 : (cajas ++ [[objeto]]).flatten ++ resto = cajas.flatten ++ objeto :: resto := by
      simp
    rw [h2]
    exact hE.1
  · intro hcap
    intro caja hc
    rcases List.mem_append.1 hc with h1 | h1
    · exact hE.2 hcap caja h1
    · simp at h1
      subst h1
      have ho : objeto ∈ objetos := hE.1.subset (List.mem_append_right _ (by simp))
      simpa using hcap objeto ho

/-- Whatever the search records is a genuine packing of the input. -/
theorem branch_and_bound_inv (capacidad : Nat) (objetos : List Nat) :
    ∀ (resto : List Nat) (cajas : List (List Nat)) (w : Nat) (m : Mejor),
      w = resto.sum → EstadoInv capacidad objetos resto cajas →
      MejorInv capacidad objetos m →
      MejorInv capacidad objetos (branch_and_bound capacidad resto cajas w m) := by
  intro resto
  induction resto with
  | nil =>
      intro cajas w m hw hE hM
      rw [bnb_nil_eq]
      by_cases hlt : ltInf cajas.length m.num_cajas = true
      · rw [if_pos hlt]
        intro k hk
        have hk2 : cajas.length = k := by simpa using hk
        subst hk2
        refine ⟨rfl, ?_, ?_⟩
        · simpa using hE.1
        · intro hcap
          exact hE.2 hcap
      · rw [if_neg hlt]
        exact hM
  | cons objeto resto ih =>
      intro cajas w m hw hE hM
      rw [bnb_cons_eq]
      by_cases hprune : geInf (calcular_lower_bound capacidad cajas.length w)
          m.num_cajas = true
      · rw [if_pos hprune]
        exact hM
      · rw [if_neg hprune]
        have hw' : w - objeto = resto.sum := by
          simp at hw
          omega
        have hM1 : MejorInv capacidad objetos (bnbCajas capacidad objeto
            (fun cj mm => branch_and_bound capacidad resto cj (w - objeto) mm)
            cajas (List.range cajas.length) m) :=
          bnbCajas_inv capacidad objeto _ cajas (MejorInv capacidad objetos)
            (fun i mm hi hfit hmm =>
              ih (insertAt cajas i objeto) (w - objeto) mm hw'
                (estado_put hE hi hfit) hmm)
            _ m (fun i hi => List.mem_range.1 hi) hM
        unfold branchStep
        by_cases hnew : nuevaCajaPermitida cajas.length (bnbCajas capacidad objeto
            (fun cj mm => branch_and_bound capacidad resto cj (w - objeto) mm)
            cajas (List.range cajas.length) m).num_cajas = true
        · rw [if_pos hnew]
          exact ih _ (w - objeto) _ hw' (estado_new hE) hM1
        · rw [if_neg hnew]
          exact hM1

/-- No completion of the current state is overlooked: after the call,
the incumbent is at most the size of any reachable completion. -/
theorem branch_and_bound_cover (capacidad : Nat) (objetos : List Nat)
    (hC : 0 < capacidad) (hcap : ∀ o ∈ objetos, o ≤ capacidad) :
    ∀ (resto : List Nat) (cajas : List (List Nat)) (w : Nat) (m : Mejor),
      w = resto.sum → EstadoInv capacidad objetos resto cajas →
      MejorInv capacidad objetos m →
      ∀ Q, Ext capacidad cajas resto Q →
        onumLe (branch_and_bound capacidad resto cajas w m).num_cajas
          (some Q.length) := by
  intro resto
  induction resto with
  | nil =>
      intro cajas w m hw hE hM Q hQ
      cases hQ
      rw [bnb_nil_eq]
      by_cases hlt : ltInf cajas.length m.num_cajas = true
      · rw [if_pos hlt]
        simp [onumLe]
      · rw [if_neg hlt]
        rcases ltInf_false (by simpa using hlt) with ⟨mm, hmm, hle⟩
        simp [hmm, onumLe]
        exact hle
  | cons objeto resto ih =>
      intro cajas w m hw hE hM Q hQ
      rw [bnb_cons_eq]
      by_cases hprune : geInf (calcular_lower_bound capacidad cajas.length w)
          m.num_cajas = true
      · rw [if_pos hprune]
        rcases geInf_true hprune with ⟨mm, hmm, hle⟩
        have hcajascaps : ∀ caja ∈ cajas, caja.sum ≤ capacidad := hE.2 hcap
        have hrestocap : ∀ o ∈ objeto :: resto, o ≤ capacidad := by
          intro o ho
          exact hcap o (hE.1.subset (List.mem_append_right _ ho))
        have hQcaps := hQ.caps hcajascaps hrestocap
        have h1 : cajas.length ≤ Q.length := hQ.length_le
        have h2 : ((objeto :: resto).sum + capacidad - 1) / capacidad ≤ Q.length :=
          hQ.weight_bound hC hQcaps
        have hmax : calcular_lower_bound capacidad cajas.length w ≤ Q.length := by
          subst hw
          exact max_le h1 h2
        rw [hmm]
        simp only [onumLe]
        omega
      · rw [if_neg hprune]
        have hw' : w - objeto = resto.sum := by
          simp at hw
          omega
        have hM1 : MejorInv capacidad objetos (bnbCajas capacidad objeto
            (fun cj mm => branch_and_bound capacidad resto cj (w - objeto) mm)
            cajas (List.range cajas.length) m) :=
          bnbCajas_inv capacidad objeto _ cajas (MejorInv capacidad objetos)
            (fun i mm hi hfit hmm =>
              branch_and_bound_inv capacidad objetos resto (insertAt cajas i objeto)
                (w - objeto) mm hw' (estado_put hE hi hfit) hmm)
            _ m (fun i hi => List.mem_range.1 hi) hM
        have hstep_mono : ∀ m1 : Mejor,
            onumLe (branchStep capacidad objeto resto cajas w m1).num_cajas
              m1.num_cajas := by
          intro m1
          unfold branchStep
          by_cases hnew : nuevaCajaPermitida cajas.length m1.num_cajas = true
          · rw [if_pos hnew]
            exact branch_and_bound_mono capacidad resto _ _ m1
          · rw [if_neg hnew]
            exact onumLe_refl _
        cases hQ with
        | put _ _ _ _ i hi hfit hQ2 =>
            have hcov := bnbCajas_cover capacidad objeto
              (fun cj mm => branch_and_bound capacidad resto cj (w - objeto) mm)
              cajas (MejorInv capacidad objetos)
              (fun cj k => ∃ Q2, Ext capacidad cj resto Q2 ∧ Q2.length = k)
              (fun cj mm => branch_and_bound_mono capacidad resto cj (w - objeto) mm)
              (fun i2 mm hi2 hfit2 hmm =>
                branch_and_bound_inv capacidad objetos resto (insertAt cajas i2 objeto)
                  (w - objeto) mm hw' (estado_put hE hi2 hfit2) hmm)
              (by
                intro i2 mm hi2 hfit2 hmm k hB
                rcases hB with ⟨Q2, hQ2b, rfl⟩
                exact ih (insertAt cajas i2 objeto) (w - objeto) mm hw'
                  (estado_put hE hi2 hfit2) hmm Q2 hQ2b)
              (List.range cajas.length) m (fun j hj => List.mem_range.1 hj) hM
              i (List.mem_range.2 hi) hfit Q.length ⟨Q, hQ2, rfl⟩
            exact onumLe_trans (hstep_mono _) hcov
        | new _ _ _ _ hQ2 =>
            unfold branchStep
            by_cases hnew : nuevaCajaPermitida cajas.length (bnbCajas capacidad objeto
                (fun cj mm => branch_and_bound capacidad resto cj (w - objeto) mm)
                cajas (List.range cajas.length) m).num_cajas = true
            · rw [if_pos hnew]
              exact ih (cajas ++ [[objeto]]) (w - objeto) _ hw' (estado_new hE)
                hM1 Q hQ2
            · rw [if_neg hnew]
              rcases nuevaCajaPermitida_false (by simpa using hnew) with ⟨m1, hm1, hlen⟩
              have hQlen : cajas.length + 1 ≤ Q.length := by
                have := hQ2.length_le
                simp at this
                omega
              rw [hm1]
              simp only [onumLe]
              omega

/-! Every valid packing is matched by a reachable one of the same or
smaller size.  The induction threads a matching: `pares` pairs each open
bin with the items it still has to receive, `fresh` lists the bins of the
target packing that have not been opened yet. -/

theorem ext_of_empaque (capacidad : Nat) :
    ∀ (resto : List Nat) (pares : List (List Nat × List Nat))
      (fresh : List (List Nat)),
      (∀ p ∈ pares, p.1.sum + p.2.sum ≤ capacidad) →
      (∀ f ∈ fresh, f ≠ [] ∧ f.sum ≤ capacidad) →
      resto.Perm ((pares.map Prod.snd).flatten ++ fresh.flatten) →
      ∃ Q, Ext capacidad (pares.map Prod.fst) resto Q ∧
        Q.length ≤ pares.length + fresh.length := by
  intro resto
  induction resto with
  | nil =>
      intro pares fresh hsum hfresh hperm
      have hnil : (pares.map Prod.snd).flatten ++ fresh.flatten = [] :=
        hperm.symm.eq_nil
      rcases List.append_eq_nil.1 hnil with ⟨_, h2⟩
      have hfresh_nil : fresh = [] := by
        cases fresh with
        | nil => rfl
        | cons f fs =>
            have hf := (hfresh f (by simp)).1
            have hfe : f = [] := List.flatten_eq_nil_iff.1 h2 f (by simp)
            exact absurd hfe hf
      subst hfresh_nil
      exact ⟨pares.map Prod.fst, Ext.nil _, by simp⟩
  | cons o resto ih =>
      intro pares fresh hsum hfresh hperm
      have ho : o ∈ (pares.map Prod.snd).flatten ++ fresh.flatten :=
        hperm.subset (by simp)
      rcases List.mem_append.1 ho with hod | hof
      · rcases List.mem_flatten.1 hod with ⟨d0, hd, hodd⟩
        rcases List.mem_map.1 hd with ⟨pr, hpr, hprd⟩
        obtain ⟨c, d⟩ := pr
        have hde : d = d0 := hprd
        subst hde
        rcases List.append_of_mem hpr with ⟨m1, m2, hm⟩
        subst hm
        have hdsum : d.sum = o + (d.erase o).sum := by
          have := (List.perm_cons_erase hodd).sum_eq
          simpa using this
        have hcd : c.sum + d.sum ≤ capacidad := by
          have := hsum (c, d) (by simp)
          simpa using this
        have hmapfst : (m1 ++ (c, d) :: m2).map Prod.fst =
            m1.map Prod.fst ++ c :: m2.map Prod.fst := by simp
        have hi : (m1.map Prod.fst).length < ((m1 ++ (c, d) :: m2).map Prod.fst).length := by
          simp
        have hgetD : ((m1 ++ (c, d) :: m2).map Prod.fst).getD (m1.map Prod.fst).length [] = c := by
          rw [hmapfst]
          exact getD_append_length _ _ _ _
        have hinsert : insertAt ((m1 ++ (c, d) :: m2).map Prod.fst)
            (m1.map Prod.fst).length o =
            (m1 ++ (c ++ [o], d.erase o) :: m2).map Prod.fst := by
          unfold insertAt
          rw [hgetD, hmapfst, set_append_length]
          simp
        have hperm2 : resto.Perm
            (((m1 ++ (c ++ [o], d.erase o) :: m2).map Prod.snd).flatten ++
              fresh.flatten) := by
          have e1 : ((m1 ++ (c, d) :: m2).map Prod.snd).flatten ++ fresh.flatten =
              (m1.map Prod.snd).flatten ++ d ++
                ((m2.map Prod.snd).flatten ++ fresh.flatten) := by
            simp [List.append_assoc]
          have hA := perm_extract ((m1.map Prod.snd).flatten)
            ((m2.map Prod.snd).flatten ++ fresh.flatten) hodd
          have h3 : (o :: resto).Perm
              (o :: ((m1.map Prod.snd).flatten ++ d.erase o ++
                ((m2.map Prod.snd).flatten ++ fresh.flatten))) :=
            hperm.trans (e1 ▸ hA)
          have h4 := h3.cons_inv
          have e2 : ((m1 ++ (c ++ [o], d.erase o) :: m2).map Prod.snd).flatten ++
              fresh.flatten =
              (m1.map Prod.snd).flatten ++ d.erase o ++
                ((m2.map Prod.snd).flatten ++ fresh.flatten) := by
            simp [List.append_assoc]
          rw [e2]
          exact h4
        have hsum2 : ∀ p ∈ m1 ++ (c ++ [o], d.erase o) :: m2,
            p.1.sum + p.2.sum ≤ capacidad := by
          intro p hp
          rcases List.mem_append.1 hp with h1 | h1
          · exact hsum p (by simp [h1])
          · rcases List.mem_cons.1 h1 with rfl | h2
            · simp only [List.sum_append, List.sum_cons, List.sum_nil]
              omega
            · exact hsum p (by simp [h2])
        rcases ih (m1 ++ (c ++ [o], d.erase o) :: m2) fresh hsum2 hfresh hperm2
          with ⟨Q, hQext, hQlen⟩
        refine ⟨Q, ?_, ?_⟩
        · refine Ext.put _ o resto Q (m1.map Prod.fst).length hi ?_ ?_
          · rw [hgetD]
            omega
          · rw [hinsert]
            exact hQext
        · simp at hQlen ⊢
          omega
      · rcases List.mem_flatten.1 hof with ⟨f, hf, hofd⟩
        rcases List.append_of_mem hf with ⟨f1, f2, hfr⟩
        subst hfr
        have hfsum : f.sum ≤ capacidad := (hfresh f (by simp)).2
        have hfs : f.sum = o + (f.erase o).sum := by
          have := (List.perm_cons_erase hofd).sum_eq
          simpa using this
        have hmapfst : (pares ++ [([o], f.erase o)]).map Prod.fst =
            pares.map Prod.fst ++ [[o]] := by simp
        have hsum2 : ∀ p ∈ pares ++ [([o], f.erase o)],
            p.1.sum + p.2.sum ≤ capacidad := by
          intro p hp
          rcases List.mem_append.1 hp with h1 | h1
          · exact hsum p h1
          · simp at h1
            subst h1
            simp only [List.sum_cons, List.sum_nil]
            omega
        have hfresh2 : ∀ g ∈ f1 ++ f2, g ≠ [] ∧ g.sum ≤ capacidad := by
          intro g hg
          rcases List.mem_append.1 hg with h1 | h1
          · exact hfresh g (by simp [h1])
          · exact hfresh g (by simp [h1])
        have hperm2 : resto.Perm
            ((((pares ++ [([o], f.erase o)]).map Prod.snd).flatten) ++
              (f1 ++ f2).flatten) := by
          have e1 : (pares.map Prod.snd).flatten ++ (f1 ++ f :: f2).flatten =
              ((pares.map Prod.snd).flatten ++ f1.flatten) ++ f ++ f2.flatten := by
            simp [List.append_assoc]
          have hA := perm_extract ((pares.map Prod.snd).flatten ++ f1.flatten)
            f2.flatten hofd
          have h3 : (o :: resto).Perm
              (o :: ((pares.map Prod.snd).flatten ++ f1.flatten ++ f.erase o ++
                f2.flatten)) :=
            hperm.trans (e1 ▸ hA)
          have h4 := h3.cons_inv
          have h5 : ((f1.flatten ++ f.erase o) ++ f2.flatten).Perm
              ((f.erase o ++ f1.flatten) ++ f2.flatten) :=
            (List.perm_append_comm).append_right _
          have h6 := h5.append_left ((pares.map Prod.snd).flatten)
          have e2 : (pares.map Prod.snd).flatten ++ f1.flatten ++ f.erase o ++
              f2.flatten =
              (pares.map Prod.snd).flatten ++ ((f1.flatten ++ f.erase o) ++ f2.flatten) := by
            simp [List.append_assoc]
          have e3 : (((pares ++ [([o], f.erase o)]).map Prod.snd).flatten) ++
              (f1 ++ f2).flatten =
              (pares.map Prod.snd).flatten ++ ((f.erase o ++ f1.flatten) ++ f2.flatten) := by
            simp [List.append_assoc]
          rw [e3]
          refine h4.trans ?_
          rw [e2]
          exact h6
        rcases ih (pares ++ [([o], f.erase o)]) (f1 ++ f2) hsum2 hfresh2 hperm2
          with ⟨Q, hQext, hQlen⟩
        refine ⟨Q, ?_, ?_⟩
        · refine Ext.new _ o resto Q ?_
          rw [← hmapfst]
          exact hQext
        · simp at hQlen ⊢
          omega

/-- Dropping empty bins does not change the packed items. -/
theorem flatten_filter_ne_nil : ∀ Q : List (List Nat),
    (Q.filter (fun caja => !decide (caja = []))).flatten = Q.flatten := by
  intro Q
  induction Q with
  | nil => rfl
  | cons caja resto ih =>
      by_cases hc : caja = []
      · subst hc
        simpa using ih
      · simp [hc, ih]

/-- Any packing of the input is matched, from the empty start state, by
a reachable packing with at most as many bins. -/
theorem ext_exists_of_empaque {capacidad : Nat} {objetos : List Nat}
    {Q : List (List Nat)} (hE : EsEmpaque capacidad objetos Q) :
    ∃ Q2, Ext capacidad [] objetos Q2 ∧ Q2.length ≤ Q.length := by
  rcases ext_of_empaque capacidad objetos []
      (Q.filter (fun caja => !decide (caja = [])))
      (by simp)
      (by
        intro f hfm
        have h1 := List.of_mem_filter hfm
        have h2 := List.mem_of_mem_filter hfm
        exact ⟨by simpa using h1, hE.2 f h2⟩)
      (by
        simp only [List.map_nil, List.flatten_nil, List.nil_append]
        rw [flatten_filter_ne_nil]
        exact hE.1.symm)
    with ⟨Q2, hQext, hQlen⟩
  refine ⟨Q2, by simpa using hQext, ?_⟩
  have := Q.length_filter_le (fun caja => !decide (caja = []))
  simp at hQlen
  omega

/-- Full correctness of the exact solver on inputs where every item fits
in a bin: the returned count is finite, matches the returned packing,
the packing is valid, and no valid packing uses fewer bins. -/
theorem resultado_optimo_spec {capacidad : Nat} {objetos : List Nat}
    (hC : 0 < capacidad) (hcap : ∀ o ∈ objetos, o ≤ capacidad) :
    ∃ k, (resultado_optimo capacidad objetos).1 = some k ∧
      (resultado_optimo capacidad objetos).2.length = k ∧
      EsEmpaque capacidad objetos (resultado_optimo capacidad objetos).2 ∧
      ∀ Q, EsEmpaque capacidad objetos Q → k ≤ Q.length := by
  have h1 : (resultado_optimo capacidad objetos).1 =
      (branch_and_bound capacidad objetos [] objetos.sum ⟨none, []⟩).num_cajas := rfl
  have h2 : (resultado_optimo capacidad objetos).2 =
      (branch_and_bound capacidad objetos [] objetos.sum ⟨none, []⟩).cajas := rfl
  have hE0 : EstadoInv capacidad objetos objetos [] := by
    refine ⟨by simp, ?_⟩
    intro _ caja hc
    simp at hc
  have hM0 : MejorInv capacidad objetos ⟨none, []⟩ := by
    intro k hk
    simp at hk
  have hinv := branch_and_bound_inv capacidad objetos objetos [] objetos.sum
    ⟨none, []⟩ rfl hE0 hM0
  have hsome := branch_and_bound_isSome capacidad objetos [] objetos.sum ⟨none, []⟩
  cases hnum : (branch_and_bound capacidad objetos [] objetos.sum ⟨none, []⟩).num_cajas with
  | none => exact absurd hnum hsome
  | some k =>
      rcases hinv k hnum with ⟨hlen, hperm, hcaps⟩
      refine ⟨k, by rw [h1, hnum], by rw [h2, hlen], ⟨by rw [h2]; exact hperm,
        by rw [h2]; exact hcaps hcap⟩, ?_⟩
      intro Q hQ
      rcases ext_exists_of_empaque hQ with ⟨Q2, hQ2ext, hQ2len⟩
      have hcover := branch_and_bound_cover capacidad objetos hC hcap objetos []
        objetos.sum ⟨none, []⟩ rfl hE0 hM0 Q2 hQ2ext
      rw [hnum] at hcover
      rcases onumLe_some_left hcover with ⟨j, hj, hjle⟩
      have : j = k := by
        have := hj.symm.trans rfl
        injection this
      omega

/-! Bin counts of the greedy strategies against the theoretical minimum. -/

theorem next_fit_count {capacidad : Nat} {objetos : List Nat} (hC : 0 < capacidad)
    (hcap : ∀ o ∈ objetos, o ≤ capacidad) :
    minimo_teorico capacidad objetos ≤ (next_fit capacidad objetos).1 := by
  have h1 : (next_fit capacidad objetos).1 = (next_fit capacidad objetos).2.length := by
    cases objetos <;> rfl
  rw [h1]
  exact empaque_lower_bound hC (by rw [next_fit_flatten]) (next_fit_caps hcap)

theorem first_fit_count {capacidad : Nat} {objetos : List Nat} (hC : 0 < capacidad)
    (hcap : ∀ o ∈ objetos, o ≤ capacidad) :
    minimo_teorico capacidad objetos ≤ (first_fit capacidad objetos).1 :=
  empaque_lower_bound hC (first_fit_flatten capacidad objetos) (first_fit_caps hcap)

theorem best_fit_count {capacidad : Nat} {objetos : List Nat} (hC : 0 < capacidad)
    (hcap : ∀ o ∈ objetos, o ≤ capacidad) :
    minimo_teorico capacidad objetos ≤ (best_fit capacidad objetos).1 :=
  empaque_lower_bound hC (best_fit_flatten capacidad objetos) (best_fit_caps hcap)

theorem minimo_teorico_sortDesc (capacidad : Nat) (objetos : List Nat) :
    minimo_teorico capacidad (sortDesc objetos) = minimo_teorico capacidad objetos := by
  unfold minimo_teorico
  rw [(sortDesc_perm objetos).sum_eq]

theorem sortDesc_caps {capacidad : Nat} {objetos : List Nat}
    (hcap : ∀ o ∈ objetos, o ≤ capacidad) :
    ∀ o ∈ sortDesc objetos, o ≤ capacidad := by
  intro o ho
  exact hcap o ((sortDesc_perm objetos).subset ho)

/-! Claim C2.  As stated over all positive item lists the bound fails
(an item larger than the capacity sits alone in an over-full bin), so it
is corrected by requiring every item to fit in a bin. -/

/-- Claim C2, counterexample to the claim as stated: with capacity 1 and
the single (positive) item 2, `next_fit` uses 1 bin while the
theoretical minimum `ceil(2/1)` is 2, so the greedy count is **not**
`≥ theoretical_minimum` for every positive input. -/
theorem greedy_lower_bound_counterexample :
    (next_fit 1 [2]).1 < minimo_teorico 1 [2] := by decide

/-- Claim C2 (amended: every item also fits in a bin, `o ≤ C`): each of
the five greedy strategies returns at least
`theoretical_minimum = ceil(sum/C)` bins. -/
theorem greedy_ge_minimo_teorico {capacidad : Nat} {objetos : List Nat}
    (hC : 0 < capacidad) (_hpos : ∀ o ∈ objetos, 0 < o)
    (hcap : ∀ o ∈ objetos, o ≤ capacidad) :
    minimo_teorico capacidad objetos ≤ (next_fit capacidad objetos).1 ∧
    minimo_teorico capacidad objetos ≤ (first_fit capacidad objetos).1 ∧
    minimo_teorico capacidad objetos ≤ (best_fit capacidad objetos).1 ∧
    minimo_teorico capacidad objetos ≤ (first_fit_decreasing capacidad objetos).1 ∧
    minimo_teorico capacidad objetos ≤ (best_fit_decreasing capacidad objetos).1 := by
  refine ⟨next_fit_count hC hcap, first_fit_count hC hcap, best_fit_count hC hcap,
    ?_, ?_⟩
  · unfold first_fit_decreasing
    rw [← minimo_teorico_sortDesc capacidad objetos]
    exact first_fit_count hC (sortDesc_caps hcap)
  · unfold best_fit_decreasing
    rw [← minimo_teorico_sortDesc capacidad objetos]
    exact best_fit_count hC (sortDesc_caps hcap)

/-- Claim C2 witness. -/
theorem greedy_ge_minimo_teorico_witness :
    minimo_teorico 10 [6, 5, 4, 3] ≤ (next_fit 10 [6, 5, 4, 3]).1 ∧
    minimo_teorico 10 [6, 5, 4, 3] ≤ (first_fit 10 [6, 5, 4, 3]).1 ∧
    minimo_teorico 10 [6, 5, 4, 3] ≤ (best_fit 10 [6, 5, 4, 3]).1 ∧
    minimo_teorico 10 [6, 5, 4, 3] ≤ (first_fit_decreasing 10 [6, 5, 4, 3]).1 ∧
    minimo_teorico 10 [6, 5, 4, 3] ≤ (best_fit_decreasing 10 [6, 5, 4, 3]).1 :=
  greedy_ge_minimo_teorico (by decide) (by decide) (by decide)

/-! Claim C4.  As stated it fails for an item above the capacity; with
every item `≤ C` all six solvers only produce feasible bins. -/

/-- Claim C4, counterexample to the claim as stated: with capacity 1 and
the positive item 2, `next_fit` returns the bin `[2]` whose total
exceeds the capacity. -/
theorem solvers_caps_counterexample :
    ¬ ∀ caja ∈ (next_fit 1 [2]).2, caja.sum ≤ 1 := by decide

/-- Claim C4 (amended: every item also fits in a bin, `o ≤ C`): every
bin returned by the five greedy strategies and by the exact solver
respects the capacity. -/
theorem solvers_caps {capacidad : Nat} {objetos : List Nat}
    (_hC : 0 < capacidad) (_hpos : ∀ o ∈ objetos, 0 < o)
    (hcap : ∀ o ∈ objetos, o ≤ capacidad) :
    (∀ caja ∈ (next_fit capacidad objetos).2, caja.sum ≤ capacidad) ∧
    (∀ caja ∈ (first_fit capacidad objetos).2, caja.sum ≤ capacidad) ∧
    (∀ caja ∈ (best_fit capacidad objetos).2, caja.sum ≤ capacidad) ∧
    (∀ caja ∈ (first_fit_decreasing capacidad objetos).2, caja.sum ≤ capacidad) ∧
    (∀ caja ∈ (best_fit_decreasing capacidad objetos).2, caja.sum ≤ capacidad) ∧
    (∀ caja ∈ (resultado_optimo capacidad objetos).2, caja.sum ≤ capacidad) := by
  refine ⟨next_fit_caps hcap, first_fit_caps hcap, best_fit_caps hcap,
    first_fit_caps (sortDesc_caps hcap), best_fit_caps (sortDesc_caps hcap), ?_⟩
  have h2 : (resultado_optimo capacidad objetos).2 =
      (branch_and_bound capacidad objetos [] objetos.sum ⟨none, []⟩).cajas := rfl
  have hE0 : EstadoInv capacidad objetos objetos [] := by
    refine ⟨by simp, ?_⟩
    intro _ caja hc
    simp at hc
  have hM0 : MejorInv capacidad objetos ⟨none, []⟩ := by
    intro k hk
    simp at hk
  have hinv := branch_and_bound_inv capacidad objetos objetos [] objetos.sum
    ⟨none, []⟩ rfl hE0 hM0
  have hsome := branch_and_bound_isSome capacidad objetos [] objetos.sum ⟨none, []⟩
  cases hnum : (branch_and_bound capacidad objetos [] objetos.sum ⟨none, []⟩).num_cajas with
  | none => exact absurd hnum hsome
  | some k =>
      rw [h2]
      exact (hinv k hnum).2.2 hcap

/-- Claim C4 witness. -/
theorem solvers_caps_witness :
    (∀ caja ∈ (next_fit 10 [6, 5, 4, 3]).2, caja.sum ≤ 10) ∧
    (∀ caja ∈ (first_fit 10 [6, 5, 4, 3]).2, caja.sum ≤ 10) ∧
    (∀ caja ∈ (best_fit 10 [6, 5, 4, 3]).2, caja.sum ≤ 10) ∧
    (∀ caja ∈ (first_fit_decreasing 10 [6, 5, 4, 3]).2, caja.sum ≤ 10) ∧
    (∀ caja ∈ (best_fit_decreasing 10 [6, 5, 4, 3]).2, caja.sum ≤ 10) ∧
    (∀ caja ∈ (resultado_optimo 10 [6, 5, 4, 3]).2, caja.sum ≤ 10) :=
  solvers_caps (by decide) (by decide) (by decide)

/-! Claim C1.  As stated over all positive item lists it fails: an item
larger than the capacity has no valid packing at all, yet the solver
returns a packing, which is then necessarily infeasible.  Amended to
items that fit in a bin, the solver is exactly optimal. -/

/-- Claim C1, counterexample to the claim as stated: on capacity 1 and
items `[2]` the returned "witnessing packing" is not a valid packing
(the bin `[2]` exceeds the capacity; no valid packing exists). -/
theorem resultado_optimo_counterexample :
    ¬ EsEmpaque 1 [2] (resultado_optimo 1 [2]).2 := by
  intro h
  have h2 := h.2 [2] (by decide)
  exact absurd h2 (by decide)

/-- Claim C1 (amended: every item also fits in a bin, `o ≤ C`):
`resultado_optimo` terminates with a finite incumbent which is a valid
packing of the input of minimum possible size. -/
theorem resultado_optimo_optimal {capacidad : Nat} {objetos : List Nat}
    (hC : 0 < capacidad) (_hpos : ∀ o ∈ objetos, 0 < o)
    (hcap : ∀ o ∈ objetos, o ≤ capacidad) :
    ∃ k, (resultado_optimo capacidad objetos).1 = some k ∧
      (resultado_optimo capacidad objetos).2.length = k ∧
      EsEmpaque capacidad objetos (resultado_optimo capacidad objetos).2 ∧
      ∀ Q, EsEmpaque capacidad objetos Q → k ≤ Q.length :=
  resultado_optimo_spec hC hcap

/-- Claim C1 witness. -/
theorem resultado_optimo_optimal_witness :
    ∃ k, (resultado_optimo 10 [6, 5, 4, 3]).1 = some k ∧
      (resultado_optimo 10 [6, 5, 4, 3]).2.length = k ∧
      EsEmpaque 10 [6, 5, 4, 3] (resultado_optimo 10 [6, 5, 4, 3]).2 ∧
      ∀ Q, EsEmpaque 10 [6, 5, 4, 3] Q → k ≤ Q.length :=
  resultado_optimo_optimal (by decide) (by decide) (by decide)

/-! Claim C6.  The pointwise comparison between the decreasing variants
and their base strategies fails in general; it holds (as an equality)
when the input is already sorted in non-increasing order. -/

theorem sortDesc_pairwise (lista : List Nat) :
    (sortDesc lista).Pairwise (fun a b : Nat => b ≤ a) := by
  have h : (lista.mergeSort (fun a b => decide (b ≤ a))).Pairwise
      (fun a b : Nat => decide (b ≤ a) = true) :=
    List.sorted_mergeSort
      (by
        intro a b c hab hbc
        simp at hab hbc ⊢
        omega)
      (by
        intro a b
        by_cases hab : b ≤ a
        · simp [hab]
        · simp [hab]
          omega)
      lista
  exact h.imp (fun hab => by simpa using hab)

instance instIsAntisymmGeNat : IsAntisymm Nat (fun a b => b ≤ a) :=
  ⟨fun _ _ h1 h2 => Nat.le_antisymm h2 h1⟩

/-- Concrete evaluation of the descending sort on the counterexample
instance of claim C6. -/
theorem sortDesc_eval :
    sortDesc [4, 3, 3, 4, 3, 3, 5, 5] = [5, 5, 4, 4, 3, 3, 3, 3] := by
  have h1 : (sortDesc [4, 3, 3, 4, 3, 3, 5, 5]).Pairwise (fun a b : Nat => b ≤ a) :=
    sortDesc_pairwise _
  have h2 : ([5, 5, 4, 4, 3, 3, 3, 3] : List Nat).Pairwise (fun a b : Nat => b ≤ a) := by
    decide
  exact List.eq_of_perm_of_sorted ((sortDesc_perm _).trans (by decide)) h1 h2

/-- Claim C6, counterexample to the claim as stated: on capacity 10 and
items `[4,3,3,4,3,3,5,5]`, plain First Fit and Best Fit use 3 bins while
their decreasing variants use 4, so neither `FFD ≤ FF` nor `BFD ≤ BF`
holds pointwise. -/
theorem decreasing_counterexample :
    (first_fit 10 [4, 3, 3, 4, 3, 3, 5, 5]).1 <
      (first_fit_decreasing 10 [4, 3, 3, 4, 3, 3, 5, 5]).1 ∧
    (best_fit 10 [4, 3, 3, 4, 3, 3, 5, 5]).1 <
      (best_fit_decreasing 10 [4, 3, 3, 4, 3, 3, 5, 5]).1 := by
  unfold first_fit_decreasing best_fit_decreasing
  rw [sortDesc_eval]
  decide

/-- Claim C6 (amended): when the input is already sorted in
non-increasing order the decreasing variants coincide with their base
strategies (hence their bin counts are equal, in particular `≤`); the
universal pointwise inequality is refuted by the counterexample. -/
theorem decreasing_eq_on_sorted {capacidad : Nat} {objetos : List Nat}
    (hsorted : objetos.Pairwise (fun a b => b ≤ a)) :
    first_fit_decreasing capacidad objetos = first_fit capacidad objetos ∧
    best_fit_decreasing capacidad objetos = best_fit capacidad objetos := by
  unfold first_fit_decreasing best_fit_decreasing
  rw [sortDesc_of_sorted hsorted]
  exact ⟨rfl, rfl⟩

/-- Claim C6 witness. -/
theorem decreasing_eq_on_sorted_witness :
    first_fit_decreasing 10 [5, 4, 3] = first_fit 10 [5, 4, 3] ∧
    best_fit_decreasing 10 [5, 4, 3] = best_fit 10 [5, 4, 3] :=
  decreasing_eq_on_sorted (by decide)

/-! Properties of the random primitives. -/

theorem randintO_bounds {a b : Int} {r r2 : Rng} {v : Int}
    (h : randintO a b r = some (v, r2)) : a ≤ v ∧ v ≤ b := by
  unfold randintO Rng.next at h
  by_cases hab : a ≤ b
  · rw [if_pos hab] at h
    simp at h
    obtain ⟨hv, _⟩ := h
    have hpos : (0 : Int) < b + 1 - a := by omega
    have hmod1 : 0 ≤ ((r.seq r.pos : Int)) % (b + 1 - a) :=
      Int.emod_nonneg _ (by omega)
    have hmod2 : ((r.seq r.pos : Int)) % (b + 1 - a) < b + 1 - a :=
      Int.emod_lt_of_pos _ hpos
    omega
  · rw [if_neg hab] at h
    simp at h

theorem randomUnit_nonneg (r : Rng) : 0 ≤ (randomUnit r).1 := by
  unfold randomUnit Rng.next
  positivity

/-! Claim C8.  The crossover contract: unchanged copies below length 2,
a genuine tail swap from length 3 on — but for length exactly 2 the
Python call `random.randint(1, 0)` raises, so "n ≥ 2" in the claim is
wrong at `n = 2`.  (Only the support of the cut-point distribution is
modelled; uniformity is outside the embedding.) -/

/-- Claim C8, counterexample to the claim as stated: for equal-length
parents of length exactly 2 the crossover raises (models
`random.randint(1, 0)` raising `ValueError`) instead of returning two
children. -/
theorem crossover_length_two_counterexample :
    crossover [0, 0] [1, 1] r0 = none := by rfl

/-- Claim C8 (amended: parents of length < 2 are returned unchanged;
for length exactly 2 the call raises; from length 3 on, a cut point in
`[1, n-2]` is drawn and the tails are swapped). -/
theorem crossover_spec (parent1 parent2 : List Nat) (r : Rng)
    (hlen : parent1.length = parent2.length) :
    (parent1.length < 2 → crossover parent1 parent2 r = some ((parent1, parent2), r)) ∧
    (parent1.length = 2 → crossover parent1 parent2 r = none) ∧
    (3 ≤ parent1.length → ∃ pt r2, 1 ≤ pt ∧ pt ≤ parent1.length - 2 ∧
      crossover parent1 parent2 r =
        some ((parent1.take pt ++ parent2.drop pt,
          parent2.take pt ++ parent1.drop pt), r2) ∧
      (parent1.take pt ++ parent2.drop pt).length = parent1.length ∧
      (parent2.take pt ++ parent1.drop pt).length = parent1.length) := by
  refine ⟨?_, ?_, ?_⟩
  · intro h
    unfold crossover
    rw [if_pos h]
  · intro h
    unfold crossover
    rw [if_neg (by omega), h]
    unfold randintO
    rw [if_neg (by omega)]
    rfl
  · intro h
    unfold crossover
    rw [if_neg (by omega)]
    cases hr : randintO 1 ((parent1.length : Int) - 2) r with
    | none =>
        exfalso
        unfold randintO at hr
        rw [if_pos (by omega)] at hr
        simp at hr
    | some vr =>
        obtain ⟨v, r2⟩ := vr
        have hb := randintO_bounds hr
        refine ⟨v.toNat, r2, by omega, by omega, ?_, ?_, ?_⟩
        · simp [hr]
        · have hv : v.toNat ≤ parent1.length := by omega
          simp only [List.length_append, List.length_take, List.length_drop]
          omega
        · have hv : v.toNat ≤ parent2.length := by omega
          simp only [List.length_append, List.length_take, List.length_drop]
          omega

/-- Claim C8 witness (length-3 parents, all-zero stream). -/
theorem crossover_spec_witness :
    (([0, 1, 2] : List Nat).length < 2 →
      crossover [0, 1, 2] [3, 4, 5] r0 = some (([0, 1, 2], [3, 4, 5]), r0)) ∧
    (([0, 1, 2] : List Nat).length = 2 → crossover [0, 1, 2] [3, 4, 5] r0 = none) ∧
    (3 ≤ ([0, 1, 2] : List Nat).length → ∃ pt r2, 1 ≤ pt ∧
      pt ≤ ([0, 1, 2] : List Nat).length - 2 ∧
      crossover [0, 1, 2] [3, 4, 5] r0 =
        some ((([0, 1, 2] : List Nat).take pt ++ ([3, 4, 5] : List Nat).drop pt,
          ([3, 4, 5] : List Nat).take pt ++ ([0, 1, 2] : List Nat).drop pt), r2) ∧
      (([0, 1, 2] : List Nat).take pt ++ ([3, 4, 5] : List Nat).drop pt).length =
        ([0, 1, 2] : List Nat).length ∧
      (([3, 4, 5] : List Nat).take pt ++ ([0, 1, 2] : List Nat).drop pt).length =
        ([0, 1, 2] : List Nat).length) :=
  crossover_spec [0, 1, 2] [3, 4, 5] r0 (by decide)

/-! Properties of first-appearance deduplication and bin decoding. -/

theorem dedupFirst_go : ∀ (l acc : List Nat), acc.Nodup →
    (l.foldl (fun acc b => if b ∈ acc then acc else acc ++ [b]) acc).Nodup ∧
    ∀ x, x ∈ l.foldl (fun acc b => if b ∈ acc then acc else acc ++ [b]) acc ↔
      x ∈ acc ∨ x ∈ l := by
  intro l
  induction l with
  | nil =>
      intro acc ha
      exact ⟨ha, by simp⟩
  | cons b l ih =>
      intro acc ha
      simp only [List.foldl_cons]
      by_cases hb : b ∈ acc
      · rw [if_pos hb]
        rcases ih acc ha with ⟨h1, h2⟩
        refine ⟨h1, ?_⟩
        intro x
        rw [h2 x]
        constructor
        · intro hx
          rcases hx with hx | hx
          · exact Or.inl hx
          · exact Or.inr (by simp [hx])
        · intro hx
          rcases hx with hx | hx
          · exact Or.inl hx
          · rcases List.mem_cons.1 hx with rfl | hx2
            · exact Or.inl hb
            · exact Or.inr hx2
      · rw [if_neg hb]
        have hnd : (acc ++ [b]).Nodup := by
          simp [List.nodup_append, ha, hb]
        rcases ih (acc ++ [b]) hnd with ⟨h1, h2⟩
        refine ⟨h1, ?_⟩
        intro x
        rw [h2 x]
        constructor
        · intro hx
          rcases hx with hx | hx
          · rcases List.mem_append.1 hx with hx2 | hx2
            · exact Or.inl hx2
            · simp at hx2
              exact Or.inr (by simp [hx2])
          · exact Or.inr (by simp [hx])
        · intro hx
          rcases hx with hx | hx
          · exact Or.inl (by simp [hx])
          · rcases List.mem_cons.1 hx with rfl | hx2
            · exact Or.inl (by simp)
            · exact Or.inr hx2

theorem dedupFirst_nodup (l : List Nat) : (dedupFirst l).Nodup :=
  (dedupFirst_go l [] (by simp)).1

theorem mem_dedupFirst {l : List Nat} {x : Nat} : x ∈ dedupFirst l ↔ x ∈ l := by
  rw [dedupFirst, (dedupFirst_go l [] (by simp)).2 x]
  simp

/-- Sums of naturals vanish exactly when every term does. -/
theorem nat_sum_eq_zero_iff : ∀ l : List Nat, l.sum = 0 ↔ ∀ x ∈ l, x = 0 := by
  intro l
  induction l with
  | nil => simp
  | cons a l ih => simp [ih]

/-- Grouping key-value pairs by a duplicate-free list of keys covering
all the keys that occur recovers the pairs, up to permutation. -/
theorem partition_flatten_perm :
    ∀ (keys : List Nat), keys.Nodup →
      ∀ ps : List (Nat × Nat), (∀ p ∈ ps, p.1 ∈ keys) →
        ((keys.map (fun b => ps.filter (fun p => decide (p.1 = b)))).flatten).Perm ps := by
  intro keys
  induction keys with
  | nil =>
      intro _ ps hcov
      cases ps with
      | nil => simp
      | cons p ps => exact absurd (hcov p (by simp)) (by simp)
  | cons b keys ih =>
      intro hnd ps hcov
      simp only [List.map_cons, List.flatten_cons]
      have hcov2 : ∀ p ∈ ps.filter (fun p => !decide (p.1 = b)), p.1 ∈ keys := by
        intro p hp
        have h1 := List.of_mem_filter hp
        have h2 := List.mem_of_mem_filter hp
        have h3 := hcov p h2
        simp at h1
        rcases List.mem_cons.1 h3 with h4 | h4
        · exact absurd h4 h1
        · exact h4
      have hkeys : ∀ c ∈ keys,
          (ps.filter (fun p => !decide (p.1 = b))).filter (fun p => decide (p.1 = c)) =
            ps.filter (fun p => decide (p.1 = c)) := by
        intro c hc
        have hcb : c ≠ b := by
          intro hcb
          subst hcb
          exact (List.nodup_cons.1 hnd).1 hc
        rw [List.filter_filter]
        apply List.filter_congr
        intro p _
        by_cases hp : p.1 = c
        · simp [hp, hcb]
        · simp [hp]
      have hmap : keys.map (fun c => ps.filter (fun p => decide (p.1 = c))) =
          keys.map (fun c =>
            (ps.filter (fun p => !decide (p.1 = b))).filter
              (fun p => decide (p.1 = c))) :=
        (List.map_congr_left (fun c hc => (hkeys c hc).symm))
      rw [hmap]
      have hih := ih (List.nodup_cons.1 hnd).2 (ps.filter (fun p => !decide (p.1 = b)))
        hcov2
      have happ := hih.append_left (ps.filter (fun p => decide (p.1 = b)))
      refine happ.trans ?_
      exact List.filter_append_perm _ ps

/-- Decoding partitions the items: the bins of `decodificar_bins`
concatenate to a permutation of the items (for the assignment vectors
the genetic algorithm produces, which have one entry per item). -/
theorem decodificar_bins_flatten {solution items : List Nat}
    (hlen : solution.length = items.length) :
    (decodificar_bins solution items).flatten.Perm items := by
  unfold decodificar_bins
  have hmaps : (dedupFirst solution).map
      (fun b => ((solution.zip items).filter (fun p => decide (p.1 = b))).map Prod.snd) =
      ((dedupFirst solution).map
        (fun b => (solution.zip items).filter (fun p => decide (p.1 = b)))).map
        (List.map Prod.snd) := by
    rw [List.map_map]
    rfl
  rw [hmaps, ← List.map_flatten]
  have hpart := partition_flatten_perm (dedupFirst solution) (dedupFirst_nodup solution)
    (solution.zip items)
    (by
      intro p hp
      exact mem_dedupFirst.2 (List.of_mem_zip hp).1)
  have := hpart.map Prod.snd
  refine this.trans ?_
  rw [List.map_snd_zip solution items (by omega)]

/-- The bins produced by decoding are exactly the per-label groups, so
their sums are the per-label totals. -/
theorem decode_caps_iff (solution items : List Nat) (capacidad : Nat) :
    (∀ caja ∈ decodificar_bins solution items, caja.sum ≤ capacidad) ↔
      totalOverflow solution items capacidad = 0 := by
  unfold decodificar_bins totalOverflow
  rw [nat_sum_eq_zero_iff]
  constructor
  · intro h x hx
    rcases List.mem_map.1 hx with ⟨b, hb, rfl⟩
    have h2 : (((solution.zip items).filter
        (fun p => decide (p.1 = b))).map Prod.snd).sum ≤ capacidad :=
      h _ (List.mem_map_of_mem _ hb)
    unfold binSumFor
    omega
  · intro h caja hc
    rcases List.mem_map.1 hc with ⟨b, hb, rfl⟩
    have h2 : binSumFor solution items b - capacidad = 0 :=
      h _ (List.mem_map_of_mem (fun b => binSumFor solution items b - capacidad) hb)
    unfold binSumFor at h2
    omega

/-! Structural invariants of the genetic operators. -/

theorem minByFitness_mem {items : List Nat} {capacidad : Nat}
    {l : List (List Nat)} {m : List Nat}
    (h : minByFitness items capacidad l = some m) : m ∈ l := by
  cases l with
  | nil => simp [minByFitness] at h
  | cons x xs =>
      simp only [minByFitness, Option.some.injEq] at h
      subst h
      have := foldl_inv
        (fun b s => if fitness s items capacidad < fitness b items capacidad then s else b)
        (fun b => b ∈ x :: xs) xs x (by simp)
        (by
          intro b a ha hb
          by_cases hf : fitness a items capacidad < fitness b items capacidad
          · simp [hf, ha]
          · simp [hf, hb])
      exact this

theorem minByFitness_isSome (items : List Nat) (capacidad : Nat)
    (l : List (List Nat)) (h : l ≠ []) :
    ∃ m, minByFitness items capacidad l = some m := by
  cases l with
  | nil => exact absurd rfl h
  | cons x xs => exact ⟨_, rfl⟩

theorem sampleGo_mem :
    ∀ (k : Nat) (l : List (List Nat)) (r : Rng), k ≤ l.length →
      ∀ x ∈ (sampleGo k l r).1, x ∈ l := by
  intro k
  induction k with
  | zero => intro l r _ x hx; simp [sampleGo] at hx
  | succ k ih =>
      intro l r hk x hx
      have hlen : 0 < l.length := by omega
      simp only [sampleGo] at hx
      rcases List.mem_cons.1 hx with rfl | hx2
      · have hi : (r.next.1 % l.length) < l.length := Nat.mod_lt _ hlen
        rw [List.getD_eq_getElem l [] hi]
        exact List.getElem_mem hi
      · have hk2 : k ≤ (l.eraseIdx (r.next.1 % l.length)).length := by
          rw [List.length_eraseIdx]
          have : (r.next.1 % l.length) < l.length := Nat.mod_lt _ hlen
          simp [this]
          omega
        exact (List.eraseIdx_sublist l (r.next.1 % l.length)).subset
          (ih (l.eraseIdx (r.next.1 % l.length)) r.next.2 hk2 x hx2)

theorem sampleGo_length :
    ∀ (k : Nat) (l : List (List Nat)) (r : Rng), ((sampleGo k l r).1).length = k := by
  intro k
  induction k with
  | zero => intro l r; rfl
  | succ k ih => intro l r; simp only [sampleGo, List.length_cons, ih]

theorem sample_mem {l res : List (List Nat)} {k : Nat} {r r2 : Rng}
    (h : sample l k r = some (res, r2)) : (∀ x ∈ res, x ∈ l) ∧ res.length = k := by
  unfold sample at h
  by_cases hk : k ≤ l.length
  · rw [if_pos hk] at h
    have hres : (sampleGo k l r).1 = res := congrArg Prod.fst (Option.some.inj h)
    rw [← hres]
    exact ⟨sampleGo_mem k l r hk, sampleGo_length k l r⟩
  · rw [if_neg hk] at h
    exact Option.noConfusion h

theorem selection_mem {pop : List (List Nat)} {items : List Nat} {capacidad : Nat}
    {r r2 : Rng} {m : List Nat}
    (h : selection pop items capacidad r = some (m, r2)) : m ∈ pop := by
  unfold selection at h
  cases hs : sample pop 3 r with
  | none =>
      rw [hs] at h
      simp only [Option.bind_eq_bind, Option.none_bind] at h
      exact Option.noConfusion h
  | some cr =>
      obtain ⟨contenders, r1⟩ := cr
      rw [hs] at h
      simp only [Option.bind_eq_bind, Option.some_bind] at h
      cases hm : minByFitness items capacidad contenders with
      | none =>
          rw [hm] at h
          simp only [Option.bind_eq_bind, Option.none_bind] at h
          exact Option.noConfusion h
      | some mm =>
          rw [hm] at h
          simp only [Option.bind_eq_bind, Option.some_bind, Option.some.injEq] at h
          have h1 : mm = m := congrArg Prod.fst h
          subst h1
          exact (sample_mem hs).1 mm (minByFitness_mem hm)

theorem crossover_lengths {p1 p2 c1 c2 : List Nat} {r r2 : Rng}
    (hlen : p1.length = p2.length)
    (h : crossover p1 p2 r = some ((c1, c2), r2)) :
    c1.length = p1.length ∧ c2.length = p1.length := by
  unfold crossover at h
  by_cases h2 : p1.length < 2
  · rw [if_pos h2] at h
    have hpair := Option.some.inj h
    have ha : p1 = c1 := congrArg (fun t => t.1.1) hpair
    have hb : p2 = c2 := congrArg (fun t => t.1.2) hpair
    rw [← ha, ← hb]
    omega
  · rw [if_neg h2] at h
    cases hr : randintO 1 ((p1.length : Int) - 2) r with
    | none =>
        rw [hr] at h
        simp only [Option.bind_eq_bind, Option.none_bind] at h
        exact Option.noConfusion h
    | some vr =>
        obtain ⟨v, r3⟩ := vr
        have hb := randintO_bounds hr
        rw [hr] at h
        simp only [Option.bind_eq_bind, Option.some_bind] at h
        have hpair := Option.some.inj h
        have ha : p1.take v.toNat ++ p2.drop v.toNat = c1 :=
          congrArg (fun t => t.1.1) hpair
        have hbb : p2.take v.toNat ++ p1.drop v.toNat = c2 :=
          congrArg (fun t => t.1.2) hpair
        rw [← ha, ← hbb]
        constructor
        · simp only [List.length_append, List.length_take, List.length_drop]
          omega
        · simp only [List.length_append, List.length_take, List.length_drop]
          omega

theorem mutate_length {s s2 : List Nat} {rate : Rat} {r r2 : Rng}
    (h : mutate s rate r = some (s2, r2)) : s2.length = s.length := by
  unfold mutate at h
  rcases hru : randomUnit r with ⟨u, r1⟩
  rw [hru] at h
  simp only at h
  by_cases hu : u < rate
  · rw [if_pos hu] at h
    cases h1 : randintO 0 ((s.length : Int) - 1) r1 with
    | none =>
        rw [h1] at h
        simp only [Option.bind_eq_bind, Option.none_bind] at h
        exact Option.noConfusion h
    | some vr =>
        obtain ⟨idx, r3⟩ := vr
        rw [h1] at h
        simp only [Option.bind_eq_bind, Option.some_bind] at h
        cases h2 : randintO 0 ((s.length : Int) - 1) r3 with
        | none =>
            rw [h2] at h
            simp only [Option.bind_eq_bind, Option.none_bind] at h
            exact Option.noConfusion h
        | some vr2 =>
            obtain ⟨v, r4⟩ := vr2
            rw [h2] at h
            simp only [Option.bind_eq_bind, Option.some_bind] at h
            have ha : s.set idx.toNat v.toNat = s2 :=
              congrArg Prod.fst (Option.some.inj h)
            rw [← ha]
            simp
  · rw [if_neg hu] at h
    have ha : s = s2 := congrArg Prod.fst (Option.some.inj h)
    rw [← ha]

set_option maxHeartbeats 1600000 in
theorem reproduce_mem {pop : List (List Nat)} {items : List Nat}
    {capacidad : Nat} {rate : Rat} {n : Nat}
    (hpop : ∀ v ∈ pop, v.length = n) :
    ∀ (need : Nat) (acc : List (List Nat)) (r : Rng) (pop2 : List (List Nat)) (r2 : Rng),
      (∀ v ∈ acc, v.length = n) →
      reproduce pop items capacidad rate need acc r = some (pop2, r2) →
      ∀ v ∈ pop2, v.length = n := by
  intro need
  induction need using Nat.strong_induction_on with
  | _ need ih =>
      intro acc r pop2 r2 hacc h
      cases need with
      | zero =>
          rw [reproduce] at h
          have ha : acc = pop2 := congrArg Prod.fst (Option.some.inj h)
          rw [← ha]
          exact hacc
      | succ need1 =>
          rw [reproduce.eq_def] at h
          simp only at h
          cases hs1 : selection pop items capacidad r with
          | none =>
              rw [hs1] at h
              simp only [Option.bind_eq_bind, Option.none_bind] at h
              exact Option.noConfusion h
          | some pr1 =>
              obtain ⟨p1, r1⟩ := pr1
              rw [hs1] at h
              simp only [Option.bind_eq_bind, Option.some_bind] at h
              cases hs2 : selection pop items capacidad r1 with
              | none =>
                  rw [hs2] at h
                  simp only [Option.bind_eq_bind, Option.none_bind] at h
                  exact Option.noConfusion h
              | some pr2 =>
                  obtain ⟨p2, rr2⟩ := pr2
                  rw [hs2] at h
                  simp only [Option.bind_eq_bind, Option.some_bind] at h
                  cases hc : crossover p1 p2 rr2 with
                  | none =>
                      rw [hc] at h
                      simp only [Option.bind_eq_bind, Option.none_bind] at h
                      exact Option.noConfusion h
                  | some cc =>
                      obtain ⟨⟨c1, c2⟩, r3⟩ := cc
                      rw [hc] at h
                      simp only [Option.bind_eq_bind, Option.some_bind] at h
                      cases hm1 : mutate c1 rate r3 with
                      | none =>
                          rw [hm1] at h
                          simp only [Option.bind_eq_bind, Option.none_bind] at h
                          exact Option.noConfusion h
                      | some mm1 =>
                          obtain ⟨m1, r4⟩ := mm1
                          rw [hm1] at h
                          simp only [Option.bind_eq_bind, Option.some_bind] at h
                          have hp1 : p1.length = n := hpop p1 (selection_mem hs1)
                          have hp2 : p2.length = n := hpop p2 (selection_mem hs2)
                          have hc12 := crossover_lengths (by omega) hc
                          have hm1len : m1.length = n := by
                            have := mutate_length hm1
                            omega
                          cases need1 with
                          | zero =>
                              simp only at h
                              have ha : acc ++ [m1] = pop2 :=
                                congrArg Prod.fst (Option.some.inj h)
                              rw [← ha]
                              intro v hv
                              rcases List.mem_append.1 hv with h1 | h1
                              · exact hacc v h1
                              · simp at h1
                                subst h1
                                exact hm1len
                          | succ need2 =>
                              simp only at h
                              cases hm2 : mutate c2 rate r4 with
                              | none =>
                                  rw [hm2] at h
                                  simp only [Option.bind_eq_bind, Option.none_bind] at h
                                  exact Option.noConfusion h
                              | some mm2 =>
                                  obtain ⟨m2, r5⟩ := mm2
                                  rw [hm2] at h
                                  simp only [Option.bind_eq_bind, Option.some_bind] at h
                                  have hm2len : m2.length = n := by
                                    have := mutate_length hm2
                                    omega
                                  refine ih need2 (by omega) _ _ _ _ ?_ h
                                  intro v hv
                                  rcases List.mem_append.1 hv with h1 | h1
                                  · rcases List.mem_append.1 h1 with h3 | h3
                                    · exact hacc v h3
                                    · simp at h3
                                      subst h3
                                      exact hm1len
                                  · simp at h1
                                    subst h1
                                    exact hm2len

theorem genIndividual_length (n : Nat) :
    ∀ (k : Nat) (r : Rng), (genIndividual n k r).1.length = k := by
  intro k
  induction k with
  | zero => intro r; rfl
  | succ k ih => intro r; simp only [genIndividual, List.length_cons, ih]

theorem generate_population_mem (n : Nat) :
    ∀ (ps : Nat) (r : Rng) (v : List Nat),
      v ∈ (generate_population n ps r).1 → v.length = n := by
  intro ps
  induction ps with
  | zero => intro r v hv; simp [generate_population] at hv
  | succ ps ih =>
      intro r v hv
      simp only [generate_population] at hv
      rcases List.mem_cons.1 hv with rfl | hv2
      · exact genIndividual_length n n r
      · exact ih _ v hv2

theorem generate_population_length (n : Nat) :
    ∀ (ps : Nat) (r : Rng), (generate_population n ps r).1.length = ps := by
  intro ps
  induction ps with
  | zero => intro r; rfl
  | succ ps ih => intro r; simp only [generate_population, List.length_cons, ih]

/-- Every population member and the running global best keep one entry
per item throughout the generation loop. -/
theorem gaLoop_lengths {items : List Nat} {capacidad ps : Nat} {rate : Rat}
    {patience : Nat} :
    ∀ (g : Nat) (pop : List (List Nat)) (bo : List Nat) (bbo : Nat)
      (last : Option Nat) (cnt : Nat) (hist : List Nat) (r : Rng)
      (popF : List (List Nat)) (boF hist2 : List Nat) (r2 : Rng),
      (∀ v ∈ pop, v.length = items.length) → bo.length = items.length →
      gaLoop items capacidad ps rate patience g pop bo bbo last cnt hist r =
        some (popF, boF, hist2, r2) →
      (∀ v ∈ popF, v.length = items.length) ∧ boF.length = items.length := by
  intro g
  induction g with
  | zero =>
      intro pop bo bbo last cnt hist r popF boF hist2 r2 hpop hbo h
      simp only [gaLoop, Option.some.injEq] at h
      have h1 : pop = popF := congrArg (fun t => t.1) h
      have h2 : bo = boF := congrArg (fun t => t.2.1) h
      rw [← h1, ← h2]
      exact ⟨hpop, hbo⟩
  | succ g ih =>
      intro pop bo bbo last cnt hist r popF boF hist2 r2 hpop hbo h
      simp only [gaLoop] at h
      cases he : minByFitness items capacidad pop with
      | none =>
          rw [he] at h
          simp only [Option.bind_eq_bind, Option.none_bind] at h
          exact Option.noConfusion h
      | some elite =>
          rw [he] at h
          simp only [Option.bind_eq_bind, Option.some_bind] at h
          cases hr : reproduce pop items capacidad rate (ps - 1) [elite] r with
          | none =>
              rw [hr] at h
              simp only [Option.bind_eq_bind, Option.none_bind] at h
              exact Option.noConfusion h
          | some pr =>
              obtain ⟨pop2, r1⟩ := pr
              rw [hr] at h
              simp only [Option.bind_eq_bind, Option.some_bind] at h
              cases hbg : minByFitness items capacidad pop2 with
              | none =>
                  rw [hbg] at h
                  simp only [Option.bind_eq_bind, Option.none_bind] at h
                  exact Option.noConfusion h
              | some best_gen =>
                  rw [hbg] at h
                  simp only [Option.bind_eq_bind, Option.some_bind] at h
                  have helite : elite.length = items.length :=
                    hpop elite (minByFitness_mem he)
                  have hpop2 : ∀ v ∈ pop2, v.length = items.length :=
                    reproduce_mem hpop (ps - 1) [elite] r pop2 r1
                      (by
                        intro v hv
                        simp at hv
                        subst hv
                        exact helite) hr
                  have hbg2 : best_gen.length = items.length :=
                    hpop2 best_gen (minByFitness_mem hbg)
                  by_cases hmej : (dedupFirst best_gen).length < bbo ∨
                      ((dedupFirst best_gen).length = bbo ∧
                        fitness best_gen items capacidad < fitness bo items capacidad)
                  · rw [if_pos hmej] at h
                    by_cases hlast : last = some (dedupFirst best_gen).length
                    · rw [if_pos hlast] at h
                      by_cases hcnt : patience ≤ cnt + 1
                      · rw [if_pos hcnt] at h
                        simp only [Option.some.injEq] at h
                        have h1 : pop2 = popF := congrArg (fun t => t.1) h
                        have h2 : best_gen = boF := congrArg (fun t => t.2.1) h
                        rw [← h1, ← h2]
                        exact ⟨hpop2, hbg2⟩
                      · rw [if_neg hcnt] at h
                        exact ih _ _ _ _ _ _ _ _ _ _ _ hpop2 hbg2 h
                    · rw [if_neg hlast] at h
                      exact ih _ _ _ _ _ _ _ _ _ _ _ hpop2 hbg2 h
                  · rw [if_neg hmej] at h
                    by_cases hlast : last = some (dedupFirst best_gen).length
                    · rw [if_pos hlast] at h
                      by_cases hcnt : patience ≤ cnt + 1
                      · rw [if_pos hcnt] at h
                        simp only [Option.some.injEq] at h
                        have h1 : pop2 = popF := congrArg (fun t => t.1) h
                        have h2 : bo = boF := congrArg (fun t => t.2.1) h
                        rw [← h1, ← h2]
                        exact ⟨hpop2, hbo⟩
                      · rw [if_neg hcnt] at h
                        exact ih _ _ _ _ _ _ _ _ _ _ _ hpop2 hbo h
                    · rw [if_neg hlast] at h
                      exact ih _ _ _ _ _ _ _ _ _ _ _ hpop2 hbo h

/-- Inversion of a successful run: the returned packing is the decoding
of the returned best vector, the count is its length, and the best
vector has one entry per item. -/
theorem ga_inversion {items : List Nat} {capacidad ps gens : Nat} {rate : Rat}
    {patience : Nat} {r : Rng} {k : Nat} {bins : List (List Nat)}
    {best hist : List Nat}
    (h : genetic_algorithm_bpp items capacidad ps gens rate patience r =
      some (k, bins, best, hist)) :
    bins = decodificar_bins best items ∧ k = bins.length ∧
      best.length = items.length := by
  simp only [genetic_algorithm_bpp] at h
  cases hg : generate_population items.length ps r with
  | mk pop r1 =>
      rw [hg] at h
      simp only at h
      cases hb : minByFitness items capacidad pop with
      | none =>
          rw [hb] at h
          simp only [Option.bind_eq_bind, Option.none_bind] at h
          exact Option.noConfusion h
      | some bo =>
          rw [hb] at h
          simp only [Option.bind_eq_bind, Option.some_bind] at h
          cases hl : gaLoop items capacidad ps rate patience gens pop bo
              (dedupFirst bo).length none 0 [] r1 with
          | none =>
              rw [hl] at h
              simp only [Option.bind_eq_bind, Option.none_bind] at h
              exact Option.noConfusion h
          | some out =>
              obtain ⟨popF, boF, histF, rF⟩ := out
              rw [hl] at h
              simp only [Option.bind_eq_bind, Option.some_bind] at h
              cases hbest : minByFitness items capacidad (boF :: popF) with
              | none =>
                  rw [hbest] at h
                  simp only [Option.bind_eq_bind, Option.none_bind] at h
                  exact Option.noConfusion h
              | some bestv =>
                  rw [hbest] at h
                  simp only [Option.bind_eq_bind, Option.some_bind,
                    Option.some.injEq] at h
                  have hk : (decodificar_bins bestv items).length = k :=
                    congrArg (fun t => t.1) h
                  have hbins : decodificar_bins bestv items = bins :=
                    congrArg (fun t => t.2.1) h
                  have hbestv : bestv = best := congrArg (fun t => t.2.2.1) h
                  have hpop : ∀ v ∈ pop, v.length = items.length := by
                    intro v hv
                    have := generate_population_mem items.length ps r v
                    rw [hg] at this
                    exact this hv
                  have hbo : bo.length = items.length :=
                    hpop bo (minByFitness_mem hb)
                  have hlen := gaLoop_lengths gens pop bo (dedupFirst bo).length
                    none 0 [] r1 popF boF histF rF hpop hbo hl
                  have hbestlen : bestv.length = items.length := by
                    rcases List.mem_cons.1 (minByFitness_mem hbest) with rfl | hm
                    · exact hlen.2
                    · exact hlen.1 _ hm
                  subst hbestv
                  refine ⟨hbins.symm, ?_, hbestlen⟩
                  rw [← hbins]
                  omega

/-! Claim C5.  The genetic algorithm performs no post-hoc feasibility
check: the claim fails, and feasibility of the final packing is exactly
"zero overflow of the returned best vector". -/

/-- Claim C5, counterexample to the claim as stated: with items
`[3,3]`, capacity 3, population 1, one generation, mutation rate 0,
patience 1 and the all-zero stream (a possible seeding), the run
succeeds and returns the single bin `[3,3]` whose total 6 exceeds the
capacity 3. -/
theorem genetic_overfull_counterexample :
    genetic_algorithm_bpp [3, 3] 3 1 1 0 1 r0 = some (1, [[3, 3]], [0, 0], [1]) ∧
    ¬ (∀ caja ∈ [[3, 3]], List.sum caja ≤ 3) := by
  constructor
  · rfl
  · decide

/-- Claim C5 (amended): on a successful run, every bin of the final
decoded packing respects the capacity **iff** the returned best vector
has zero total overflow; no feasibility is enforced, and infeasible
final packings occur (see the counterexample). -/
theorem genetic_caps_iff_overflow_zero (items : List Nat) (capacidad ps gens : Nat)
    (rate : Rat) (patience : Nat) (r : Rng) (k : Nat) (bins : List (List Nat))
    (best hist : List Nat)
    (h : genetic_algorithm_bpp items capacidad ps gens rate patience r =
      some (k, bins, best, hist)) :
    (∀ caja ∈ bins, caja.sum ≤ capacidad) ↔
      totalOverflow best items capacidad = 0 := by
  rcases ga_inversion h with ⟨hbins, _, _⟩
  rw [hbins]
  exact decode_caps_iff best items capacidad

/-- Claim C5 witness. -/
theorem genetic_caps_iff_overflow_zero_witness :
    (∀ caja ∈ [[3, 3]], List.sum caja ≤ 3) ↔ totalOverflow [0, 0] [3, 3] 3 = 0 :=
  genetic_caps_iff_overflow_zero [3, 3] 3 1 1 0 1 r0 1 [[3, 3]] [0, 0] [1] (by rfl)

/-! Claim C3.  The partition invariant holds for all solvers; for the
genetic algorithm it holds for every successful run. -/

/-- Claim C3: the bins returned by each greedy strategy, by the exact
solver, and by any successful run of the genetic solver concatenate to
exactly the input items (as a multiset). -/
theorem solvers_partition {capacidad : Nat} {objetos : List Nat}
    (_hC : 0 < capacidad) (_hpos : ∀ o ∈ objetos, 0 < o) :
    (next_fit capacidad objetos).2.flatten.Perm objetos ∧
    (first_fit capacidad objetos).2.flatten.Perm objetos ∧
    (best_fit capacidad objetos).2.flatten.Perm objetos ∧
    (first_fit_decreasing capacidad objetos).2.flatten.Perm objetos ∧
    (best_fit_decreasing capacidad objetos).2.flatten.Perm objetos ∧
    (resultado_optimo capacidad objetos).2.flatten.Perm objetos ∧
    ∀ (ps gens : Nat) (rate : Rat) (patience : Nat) (r : Rng) (k : Nat)
      (bins : List (List Nat)) (best hist : List Nat),
      genetic_algorithm_bpp objetos capacidad ps gens rate patience r =
        some (k, bins, best, hist) →
      bins.flatten.Perm objetos := by
  refine ⟨by rw [next_fit_flatten], first_fit_flatten _ _, best_fit_flatten _ _,
    ?_, ?_, ?_, ?_⟩
  · exact (first_fit_flatten capacidad (sortDesc objetos)).trans (sortDesc_perm objetos)
  · exact (best_fit_flatten capacidad (sortDesc objetos)).trans (sortDesc_perm objetos)
  · have h2 : (resultado_optimo capacidad objetos).2 =
        (branch_and_bound capacidad objetos [] objetos.sum ⟨none, []⟩).cajas := rfl
    have hE0 : EstadoInv capacidad objetos objetos [] := by
      refine ⟨by simp, ?_⟩
      intro _ caja hc
      simp at hc
    have hM0 : MejorInv capacidad objetos ⟨none, []⟩ := by
      intro k hk
      simp at hk
    have hinv := branch_and_bound_inv capacidad objetos objetos [] objetos.sum
      ⟨none, []⟩ rfl hE0 hM0
    have hsome := branch_and_bound_isSome capacidad objetos [] objetos.sum ⟨none, []⟩
    cases hnum : (branch_and_bound capacidad objetos [] objetos.sum
        ⟨none, []⟩).num_cajas with
    | none => exact absurd hnum hsome
    | some k =>
        rw [h2]
        exact (hinv k hnum).2.1
  · intro ps gens rate patience r k bins best hist h
    rcases ga_inversion h with ⟨hbins, _, hlen⟩
    rw [hbins]
    exact decodificar_bins_flatten hlen

/-- Claim C3 witness. -/
theorem solvers_partition_witness :
    (next_fit 10 [6, 5, 4, 3]).2.flatten.Perm [6, 5, 4, 3] ∧
    (first_fit 10 [6, 5, 4, 3]).2.flatten.Perm [6, 5, 4, 3] ∧
    (best_fit 10 [6, 5, 4, 3]).2.flatten.Perm [6, 5, 4, 3] ∧
    (first_fit_decreasing 10 [6, 5, 4, 3]).2.flatten.Perm [6, 5, 4, 3] ∧
    (best_fit_decreasing 10 [6, 5, 4, 3]).2.flatten.Perm [6, 5, 4, 3] ∧
    (resultado_optimo 10 [6, 5, 4, 3]).2.flatten.Perm [6, 5, 4, 3] ∧
    ∀ (ps gens : Nat) (rate : Rat) (patience : Nat) (r : Rng) (k : Nat)
      (bins : List (List Nat)) (best hist : List Nat),
      genetic_algorithm_bpp [6, 5, 4, 3] 10 ps gens rate patience r =
        some (k, bins, best, hist) →
      bins.flatten.Perm [6, 5, 4, 3] :=
  solvers_partition (by decide) (by decide)

/-! Claim C10.  Tournament selection samples 3 distinct individuals, so
a population of size 2 makes `random.sample` raise as soon as the
reproduction loop runs, while a population of size 1 never enters the
loop and the call succeeds. -/

theorem selection_none {pop : List (List Nat)} (items : List Nat) (capacidad : Nat)
    (r : Rng) (hlen : pop.length < 3) : selection pop items capacidad r = none := by
  unfold selection sample
  rw [if_neg (by omega)]
  rfl

theorem reproduce_none_of_selection_none {pop : List (List Nat)} {items : List Nat}
    {capacidad : Nat} {rate : Rat} (need1 : Nat) (acc : List (List Nat)) (r : Rng)
    (hsel : selection pop items capacidad r = none) :
    reproduce pop items capacidad rate (need1 + 1) acc r = none := by
  rw [reproduce.eq_def]
  simp only
  rw [hsel]
  simp only [Option.bind_eq_bind, Option.none_bind]

set_option maxHeartbeats 1600000 in
theorem gaLoop_none_step {items : List Nat} {capacidad ps : Nat} {rate : Rat}
    {patience : Nat} {g : Nat} {pop : List (List Nat)} {bo : List Nat}
    {bbo : Nat} {last : Option Nat} {cnt : Nat} {hist : List Nat} {r : Rng}
    {elite : List Nat}
    (he : minByFitness items capacidad pop = some elite)
    (hr : reproduce pop items capacidad rate (ps - 1) [elite] r = none) :
    gaLoop items capacidad ps rate patience (g + 1) pop bo bbo last cnt hist r =
      none := by
  simp only [gaLoop]
  rw [he]
  simp only [Option.bind_eq_bind, Option.some_bind]
  rw [hr]
  simp only [Option.bind_eq_bind, Option.none_bind]

set_option maxHeartbeats 1600000 in
theorem gaLoop_ps1_isSome (items : List Nat) (capacidad : Nat) (rate : Rat)
    (patience : Nat) :
    ∀ (g : Nat) (pop : List (List Nat)) (bo : List Nat) (bbo : Nat)
      (last : Option Nat) (cnt : Nat) (hist : List Nat) (r : Rng), pop ≠ [] →
      (gaLoop items capacidad 1 rate patience g pop bo bbo last cnt hist
        r).isSome = true := by
  intro g
  induction g with
  | zero =>
      intro pop bo bbo last cnt hist r _
      simp [gaLoop]
  | succ g ih =>
      intro pop bo bbo last cnt hist r hpop
      rcases minByFitness_isSome items capacidad pop hpop with ⟨elite, he⟩
      simp only [gaLoop]
      rw [he]
      simp only [Option.bind_eq_bind, Option.some_bind]
      have hrep : reproduce pop items capacidad rate (1 - 1) [elite] r =
          some ([elite], r) := rfl
      rw [hrep]
      simp only [Option.bind_eq_bind, Option.some_bind]
      have hbg : minByFitness items capacidad [elite] = some elite := rfl
      rw [hbg]
      simp only [Option.bind_eq_bind, Option.some_bind]
      split
      · split
        · simp
        · exact ih [elite] _ _ _ _ _ _ (by simp)
      · exact ih [elite] _ _ _ _ _ _ (by simp)

/-- Claim C10: with population_size = 2 (and at least one generation)
the call raises inside tournament selection — `random.sample(pop, 3)`
needs 3 distinct individuals — while with population_size = 1 the
reproduction loop never runs and the call returns a packing. -/
theorem genetic_population_size (items : List Nat) (capacidad gens : Nat)
    (rate : Rat) (patience : Nat) (r : Rng)
    (_hitems : items ≠ []) (hgens : 1 ≤ gens) :
    genetic_algorithm_bpp items capacidad 2 gens rate patience r = none ∧
    (genetic_algorithm_bpp items capacidad 1 gens rate patience r).isSome = true := by
  constructor
  · simp only [genetic_algorithm_bpp]
    cases hg : generate_population items.length 2 r with
    | mk pop r1 =>
        simp only
        have hlen : pop.length = 2 := by
          have := generate_population_length items.length 2 r
          rw [hg] at this
          simpa using this
        have hpop : pop ≠ [] := by
          intro hn
          rw [hn] at hlen
          simp at hlen
        rcases minByFitness_isSome items capacidad pop hpop with ⟨bo, hbo⟩
        rw [hbo]
        simp only [Option.bind_eq_bind, Option.some_bind]
        cases gens with
        | zero => omega
        | succ g =>
            have hsel : selection pop items capacidad r1 = none :=
              selection_none items capacidad r1 (by omega)
            have hr : reproduce pop items capacidad rate (2 - 1) [bo] r1 = none :=
              reproduce_none_of_selection_none 0 [bo] r1 hsel
            rw [gaLoop_none_step hbo hr]
            simp only [Option.bind_eq_bind, Option.none_bind]
  · simp only [genetic_algorithm_bpp]
    cases hg : generate_population items.length 1 r with
    | mk pop r1 =>
        simp only
        have hlen : pop.length = 1 := by
          have := generate_population_length items.length 1 r
          rw [hg] at this
          simpa using this
        have hpop : pop ≠ [] := by
          intro hn
          rw [hn] at hlen
          simp at hlen
        rcases minByFitness_isSome items capacidad pop hpop with ⟨bo, hbo⟩
        rw [hbo]
        simp only [Option.bind_eq_bind, Option.some_bind]
        cases hloop : gaLoop items capacidad 1 rate patience gens pop bo
            (dedupFirst bo).length none 0 [] r1 with
        | none =>
            have hsome := gaLoop_ps1_isSome items capacidad rate patience gens pop bo
              (dedupFirst bo).length none 0 [] r1 hpop
            rw [hloop] at hsome
            simp at hsome
        | some out =>
            obtain ⟨popF, boF, histF, rF⟩ := out
            simp only [Option.bind_eq_bind, Option.some_bind]
            rcases minByFitness_isSome items capacidad (boF :: popF) (by simp)
              with ⟨bestv, hbest⟩
            rw [hbest]
            simp only [Option.bind_eq_bind, Option.some_bind]
            simp

/-- Claim C10 witness. -/
theorem genetic_population_size_witness :
    genetic_algorithm_bpp [1] 1 2 1 0 1 r0 = none ∧
    (genetic_algorithm_bpp [1] 1 1 1 0 1 r0).isSome = true :=
  genetic_population_size [1] 1 1 0 1 r0 (by decide) (by decide)

/-! Claim C7.  Empty input: the greedy strategies and the exact solver
return `(0, [])`; the genetic solver returns an empty packing whenever
mutation never fires on an empty vector (e.g. mutation rate 0 and no
tournament failure), but it can raise: `mutate` on the empty vector
calls `random.randint(0, -1)`. -/

theorem generate_population_zero : ∀ (ps : Nat) (r : Rng),
    generate_population 0 ps r = (List.replicate ps [], r) := by
  intro ps
  induction ps with
  | zero => intro r; rfl
  | succ ps ih =>
      intro r
      simp only [generate_population, genIndividual, ih, List.replicate]

theorem minByFitness_all_nil {items : List Nat} {capacidad : Nat}
    {l : List (List Nat)} (hl : ∀ v ∈ l, v = []) (hne : l ≠ []) :
    minByFitness items capacidad l = some [] := by
  cases l with
  | nil => exact absurd rfl hne
  | cons x xs =>
      simp only [minByFitness, Option.some.injEq]
      have hx : x = [] := hl x (by simp)
      exact foldl_inv _ (fun b => b = []) xs x hx
        (fun b a ha hb => by
          have ha2 : a = [] := hl a (by simp [ha])
          show (if fitness a items capacidad < fitness b items capacidad
            then a else b) = []
          split
          · exact ha2
          · exact hb)

theorem selection_all_nil {pop : List (List Nat)} (items : List Nat)
    (capacidad : Nat) (r : Rng) (hl : ∀ v ∈ pop, v = [])
    (hlen : 3 ≤ pop.length) :
    ∃ r2, selection pop items capacidad r = some ([], r2) := by
  unfold selection sample
  rw [if_pos hlen]
  simp only [Option.bind_eq_bind, Option.some_bind]
  have hc : ∀ x ∈ (sampleGo 3 pop r).1, x = [] :=
    fun x hx => hl x (sampleGo_mem 3 pop r hlen x hx)
  have hlen3 : (sampleGo 3 pop r).1 ≠ [] := by
    have := sampleGo_length 3 pop r
    intro hn
    rw [hn] at this
    simp at this
  rw [minByFitness_all_nil hc hlen3]
  simp only [Option.bind_eq_bind, Option.some_bind]
  exact ⟨_, rfl⟩

theorem randomUnit_lt_one (r : Rng) : (randomUnit r).1 < 1 := by
  unfold randomUnit Rng.next
  simp only
  rw [div_lt_one (by positivity)]
  have h : (r.seq r.pos % 2 ^ 53) < 2 ^ 53 := Nat.mod_lt _ (by norm_num)
  exact_mod_cast h

theorem mutate_nil_one (r : Rng) : mutate [] 1 r = none := by
  unfold mutate
  rcases hru : randomUnit r with ⟨u, r1⟩
  simp only
  have hu : u < 1 := by
    have h1 := randomUnit_lt_one r
    rw [hru] at h1
    exact h1
  rw [if_pos hu]
  have hr : randintO 0 ((([] : List Nat).length : Int) - 1) r1 = none := by
    unfold randintO
    rw [if_neg (by simp)]
  rw [hr]
  simp only [Option.bind_eq_bind, Option.none_bind]

theorem mutate_nil_zero (r : Rng) : ∃ r2, mutate [] 0 r = some ([], r2) := by
  unfold mutate
  rcases hru : randomUnit r with ⟨u, r1⟩
  simp only
  have hu : ¬ u < 0 := by
    have h0 := randomUnit_nonneg r
    rw [hru] at h0
    exact not_lt.2 h0
  rw [if_neg hu]
  exact ⟨r1, rfl⟩

set_option maxHeartbeats 1600000 in
theorem reproduce_all_nil {pop : List (List Nat)} {items : List Nat}
    {capacidad : Nat} (hl : ∀ v ∈ pop, v = []) (hlen : 3 ≤ pop.length) :
    ∀ (need : Nat) (acc : List (List Nat)) (r : Rng), (∀ v ∈ acc, v = []) →
      ∃ acc2 r2, reproduce pop items capacidad 0 need acc r = some (acc2, r2) ∧
        (∀ v ∈ acc2, v = []) ∧ acc2.length = acc.length + need := by
  intro need
  induction need using Nat.strong_induction_on with
  | _ need ih =>
      intro acc r hacc
      cases need with
      | zero => exact ⟨acc, r, rfl, hacc, by simp⟩
      | succ need1 =>
          rw [reproduce.eq_def]
          simp only
          rcases selection_all_nil items capacidad r hl hlen with ⟨r1, hs1⟩
          rw [hs1]
          simp only [Option.bind_eq_bind, Option.some_bind]
          rcases selection_all_nil items capacidad r1 hl hlen with ⟨rr2, hs2⟩
          rw [hs2]
          simp only [Option.bind_eq_bind, Option.some_bind]
          have hcx : crossover [] [] rr2 = some (([], []), rr2) := rfl
          rw [hcx]
          simp only [Option.bind_eq_bind, Option.some_bind]
          rcases mutate_nil_zero rr2 with ⟨r4, hm1⟩
          rw [hm1]
          simp only [Option.bind_eq_bind, Option.some_bind]
          cases need1 with
          | zero =>
              simp only
              refine ⟨acc ++ [[]], r4, rfl, ?_, by simp⟩
              intro v hv
              rcases List.mem_append.1 hv with h1 | h1
              · exact hacc v h1
              · simp at h1
                exact h1
          | succ need2 =>
              simp only
              rcases mutate_nil_zero r4 with ⟨r5, hm2⟩
              rw [hm2]
              simp only [Option.bind_eq_bind, Option.some_bind]
              have hacc2 : ∀ v ∈ acc ++ [[]] ++ [[]], v = [] := by
                intro v hv
                rcases List.mem_append.1 hv with h1 | h1
                · rcases List.mem_append.1 h1 with h3 | h3
                  · exact hacc v h3
                  · simp at h3
                    exact h3
                · simp at h1
                  exact h1
              rcases ih need2 (by omega) (acc ++ [[]] ++ [[]]) r5 hacc2 with
                ⟨acc2, r6, heq, hall, hlen2⟩
              refine ⟨acc2, r6, heq, hall, ?_⟩
              simp at hlen2
              omega

set_option maxHeartbeats 1600000 in
theorem gaLoop_all_nil (items : List Nat) (capacidad ps patience : Nat)
    (hps : 3 ≤ ps) :
    ∀ (g : Nat) (pop : List (List Nat)) (bo : List Nat) (bbo : Nat)
      (last : Option Nat) (cnt : Nat) (hist : List Nat) (r : Rng),
      (∀ v ∈ pop, v = []) → pop.length = ps → bo = [] →
      ∃ popF hist2 r2,
        gaLoop items capacidad ps 0 patience g pop bo bbo last cnt hist r =
          some (popF, [], hist2, r2) ∧ (∀ v ∈ popF, v = []) ∧ popF.length = ps := by
  intro g
  induction g with
  | zero =>
      intro pop bo bbo last cnt hist r hl hlen hbo
      subst hbo
      exact ⟨pop, hist, r, rfl, hl, hlen⟩
  | succ g ih =>
      intro pop bo bbo last cnt hist r hl hlen hbo
      subst hbo
      simp only [gaLoop]
      have hne : pop ≠ [] := by
        intro hn
        rw [hn] at hlen
        simp at hlen
        omega
      rw [minByFitness_all_nil hl hne]
      simp only [Option.bind_eq_bind, Option.some_bind]
      rcases reproduce_all_nil hl (by omega) (ps - 1) [[]] r (by simp) with
        ⟨pop2, r1, hrep, hall2, hlen2⟩
      rw [hrep]
      simp only [Option.bind_eq_bind, Option.some_bind]
      have hlen2b : pop2.length = ps := by
        simp at hlen2
        omega
      have hne2 : pop2 ≠ [] := by
        intro hn
        rw [hn] at hlen2b
        simp at hlen2b
        omega
      rw [minByFitness_all_nil hall2 hne2]
      simp only [Option.bind_eq_bind, Option.some_bind, ite_self]
      split
      · split
        · exact ⟨pop2, hist ++ [(dedupFirst []).length], r1, rfl, hall2, hlen2b⟩
        · exact ih pop2 [] _ _ _ _ r1 hall2 hlen2b rfl
      · exact ih pop2 [] _ _ _ _ r1 hall2 hlen2b rfl

/-- Claim C7, counterexample to the claim as stated: on empty input with
valid parameters population 3, one generation, mutation rate 1,
patience 1 and the all-zero stream, the first `mutate` call hits the
empty child vector and the run raises (`random.randint(0, -1)`). -/
theorem reproduce_nil_one_none {pop : List (List Nat)} {items : List Nat}
    {capacidad : Nat} (hl : ∀ v ∈ pop, v = []) (hlen : 3 ≤ pop.length)
    (need1 : Nat) (acc : List (List Nat)) (r : Rng) :
    reproduce pop items capacidad 1 (need1 + 1) acc r = none := by
  rw [reproduce.eq_def]
  simp only
  rcases selection_all_nil items capacidad r hl hlen with ⟨r1, hs1⟩
  rw [hs1]
  simp only [Option.bind_eq_bind, Option.some_bind]
  rcases selection_all_nil items capacidad r1 hl hlen with ⟨rr2, hs2⟩
  rw [hs2]
  simp only [Option.bind_eq_bind, Option.some_bind]
  have hcx : crossover [] [] rr2 = some (([], []), rr2) := rfl
  rw [hcx]
  simp only [Option.bind_eq_bind, Option.some_bind]
  rw [mutate_nil_one rr2]
  simp only [Option.bind_eq_bind, Option.none_bind]

theorem empty_input_counterexample :
    genetic_algorithm_bpp [] 5 3 1 1 1 r0 = none := by
  simp only [genetic_algorithm_bpp, List.length_nil]
  rw [generate_population_zero 3 r0]
  simp only
  have hall : ∀ v ∈ List.replicate 3 ([] : List Nat), v = [] :=
    fun v hv => List.eq_of_mem_replicate hv
  have hbo : minByFitness [] 5 (List.replicate 3 []) = some [] :=
    minByFitness_all_nil hall (by simp)
  rw [hbo]
  simp only [Option.bind_eq_bind, Option.some_bind]
  have hr : reproduce (List.replicate 3 []) [] 5 1 (3 - 1) [[]] r0 = none :=
    reproduce_nil_one_none hall (by simp) 1 [[]] r0
  have hstep : gaLoop [] 5 3 1 1 1 (List.replicate 3 []) []
      (dedupFirst []).length none 0 [] r0 = none :=
    gaLoop_none_step hbo hr
  rw [hstep]
  simp only [Option.bind_eq_bind, Option.none_bind]

/-- Claim C7 (amended): on empty input the five greedy strategies and
the exact solver return `(0, [])`; the genetic solver returns
`(0, [], [], _)` whenever its random draws never trigger a mutation on
an empty child (for instance with mutation rate 0 and population at
least 3), but it can raise instead (see the counterexample). -/
theorem empty_input_solvers :
    (∀ capacidad : Nat,
      next_fit capacidad [] = (0, []) ∧
      first_fit capacidad [] = (0, []) ∧
      best_fit capacidad [] = (0, []) ∧
      first_fit_decreasing capacidad [] = (0, []) ∧
      best_fit_decreasing capacidad [] = (0, []) ∧
      resultado_optimo capacidad [] = (some 0, [])) ∧
    ∀ (capacidad ps gens patience : Nat) (r : Rng), 3 ≤ ps →
      ∃ hist, genetic_algorithm_bpp [] capacidad ps gens 0 patience r =
        some (0, [], [], hist) := by
  constructor
  · intro capacidad
    refine ⟨rfl, rfl, rfl, ?_, ?_, rfl⟩
    · unfold first_fit_decreasing sortDesc
      rw [List.mergeSort_nil]
      rfl
    · unfold best_fit_decreasing sortDesc
      rw [List.mergeSort_nil]
      rfl
  · intro capacidad ps gens patience r hps
    simp only [genetic_algorithm_bpp, List.length_nil]
    rw [generate_population_zero ps r]
    simp only
    have hall : ∀ v ∈ List.replicate ps ([] : List Nat), v = [] :=
      fun v hv => List.eq_of_mem_replicate hv
    have hne : List.replicate ps ([] : List Nat) ≠ [] := by
      intro hn
      have := List.length_replicate ps ([] : List Nat)
      rw [hn] at this
      simp at this
      omega
    rw [minByFitness_all_nil hall hne]
    simp only [Option.bind_eq_bind, Option.some_bind]
    rcases gaLoop_all_nil [] capacidad ps patience hps gens (List.replicate ps [])
        [] (dedupFirst []).length none 0 [] r hall
        (List.length_replicate ps []) rfl with
      ⟨popF, hist2, r2, heq, hallF, hlenF⟩
    rw [heq]
    simp only [Option.bind_eq_bind, Option.some_bind]
    have hbest : minByFitness [] capacidad ([] :: popF) = some [] :=
      minByFitness_all_nil
        (by
          intro v hv
          rcases List.mem_cons.1 hv with rfl | h1
          · rfl
          · exact hallF v h1)
        (by simp)
    rw [hbest]
    simp only [Option.bind_eq_bind, Option.some_bind]
    exact ⟨hist2, rfl⟩

/-- Claim C7 witness. -/
theorem empty_input_solvers_witness :
    (next_fit 7 [] = (0, []) ∧
      first_fit 7 [] = (0, []) ∧
      best_fit 7 [] = (0, []) ∧
      first_fit_decreasing 7 [] = (0, []) ∧
      best_fit_decreasing 7 [] = (0, []) ∧
      resultado_optimo 7 [] = (some 0, [])) ∧
    ∃ hist, genetic_algorithm_bpp [] 7 3 1 0 1 r0 = some (0, [], [], hist) :=
  ⟨empty_input_solvers.1 7, empty_input_solvers.2 7 3 1 1 r0 (by decide)⟩

/-! Claim C9: early-stopping semantics of the generation loop. -/

theorem getD_append_lt {α : Type} :
    ∀ (l l2 : List α) (j : Nat) (d : α), j < l.length →
      (l ++ l2).getD j d = l.getD j d := by
  intro l
  induction l with
  | nil =>
      intro l2 j d h
      exact absurd h (by simp)
  | cons a l ih =>
      intro l2 j d h
      cases j with
      | zero => rfl
      | succ j =>
          rw [List.cons_append, List.getD_cons_succ, List.getD_cons_succ]
          exact ih l2 j d (by simpa using h)

/-- Appending one entry to the history does not affect plateaus at the
old indices. -/
theorem plateau_append {hist : List Nat} {x p t : Nat} (ht : t < hist.length) :
    Plateau (hist ++ [x]) p t ↔ Plateau hist p t := by
  constructor
  · intro hP
    refine ⟨hP.1, ht, ?_⟩
    intro j hj1 hj2
    have hw := hP.2.2 j hj1 hj2
    rwa [getD_append_lt hist [x] j 0 (Nat.lt_trans hj2 ht),
      getD_append_lt hist [x] t 0 ht] at hw
  · intro hP
    refine ⟨hP.1, by simp only [List.length_append, List.length_cons,
      List.length_nil]; omega, ?_⟩
    intro j hj1 hj2
    rw [getD_append_lt hist [x] j 0 (Nat.lt_trans hj2 ht),
      getD_append_lt hist [x] t 0 ht]
    exact hP.2.2 j hj1 hj2

/-- One generation step with a best-bin-count different from
`last_best_bins` (also the very first generation): the counter is reset
to `0` and the invariant is preserved. -/
theorem esState_step_reset {p : Nat} {hist : List Nat} {last : Option Nat}
    {cnt : Nat} (hp : 1 ≤ p) (hS : EsState p hist last cnt) (bbg : Nat)
    (hne : last ≠ some bbg) :
    EsState p (hist ++ [bbg]) (some bbg) 0 := by
  have hnp := hS.1
  have hnone := hS.2.1
  have hsome := hS.2.2
  have hlen2 : (hist ++ [bbg]).length = hist.length + 1 := by simp
  have hlast2 : (hist ++ [bbg]).getD hist.length 0 = bbg :=
    getD_append_length hist bbg [] 0
  have hprev : hist ≠ [] → (hist ++ [bbg]).getD (hist.length - 1) 0 ≠ bbg := by
    intro hne2
    cases last with
    | none => exact absurd (hnone rfl).1 hne2
    | some v =>
        have hrun := (hsome v rfl).2.2.1
        have hpos : 0 < hist.length := List.length_pos.2 hne2
        rw [getD_append_lt hist [bbg] (hist.length - 1) 0 (by omega)]
        have hv : hist.getD (hist.length - 1) 0 = v := hrun _ (by omega) (by omega)
        rw [hv]
        intro hvb
        exact hne (by rw [hvb])
  refine ⟨?_, ?_, ?_⟩
  · intro t ht
    rw [hlen2] at ht
    rcases Nat.lt_or_ge t hist.length with hlt | hge
    · rw [plateau_append hlt]
      exact hnp t hlt
    · have hteq : t = hist.length := by omega
      subst hteq
      intro hP
      have hpt := hP.1
      have hwin := hP.2.2
      have hpos : 1 ≤ hist.length := by omega
      have hwj := hwin (hist.length - 1) (by omega) (by omega)
      rw [hlast2] at hwj
      exact hprev (List.ne_nil_of_length_pos (by omega)) hwj
  · intro hn
    exact Option.noConfusion hn
  · intro w hw
    have hwv : bbg = w := Option.some.inj hw
    subst hwv
    refine ⟨hp, by omega, ?_, ?_⟩
    · intro j hj1 hj2
      have hje : j = hist.length := by omega
      subst hje
      exact hlast2
    · intro hlt
      have h1 : (hist ++ [bbg]).length - (0 + 2) = hist.length - 1 := by omega
      rw [h1]
      have hpos : 0 < hist.length := by omega
      exact hprev (List.ne_nil_of_length_pos hpos)

/-- One generation step with the same best-bin-count as
`last_best_bins`, taken when the patience budget is not yet exhausted:
the counter is incremented and the invariant is preserved. -/
theorem esState_step_same {p : Nat} {hist : List Nat} {v cnt : Nat}
    (hS : EsState p hist (some v) cnt) (hcnt : cnt + 1 < p) :
    EsState p (hist ++ [v]) (some v) (cnt + 1) := by
  have hnp := hS.1
  have hrest := hS.2.2 v rfl
  have hle := hrest.2.1
  have hrun := hrest.2.2.1
  have hexact := hrest.2.2.2
  have hlen2 : (hist ++ [v]).length = hist.length + 1 := by simp
  have hlast2 : (hist ++ [v]).getD hist.length 0 = v :=
    getD_append_length hist v [] 0
  refine ⟨?_, ?_, ?_⟩
  · intro t ht
    rw [hlen2] at ht
    rcases Nat.lt_or_ge t hist.length with hlt | hge
    · rw [plateau_append hlt]
      exact hnp t hlt
    · have hteq : t = hist.length := by omega
      subst hteq
      intro hP
      have hpt := hP.1
      have hwin := hP.2.2
      rcases Nat.lt_or_ge (cnt + 1) hist.length with hin | hout
      · have hbad := hexact hin
        have hwj := hwin (hist.length - (cnt + 2)) (by omega) (by omega)
        rw [hlast2, getD_append_lt hist [v] (hist.length - (cnt + 2)) 0
          (by omega)] at hwj
        exact hbad hwj
      · omega
  · intro hn
    exact Option.noConfusion hn
  · intro w hw
    have hwv : v = w := Option.some.inj hw
    subst hwv
    refine ⟨hcnt, by omega, ?_, ?_⟩
    · intro j hj1 hj2
      rcases Nat.lt_or_ge j hist.length with hlt | hge
      · rw [getD_append_lt hist [v] j 0 hlt]
        exact hrun j (by omega) hlt
      · have hje : j = hist.length := by omega
        subst hje
        exact hlast2
    · intro hlt
      have h1 : (hist ++ [v]).length - (cnt + 1 + 2) = hist.length - (cnt + 2) := by
        omega
      rw [h1, getD_append_lt hist [v] (hist.length - (cnt + 2)) 0 (by omega)]
      exact hexact (by omega)

/-- One generation step with the same best-bin-count as
`last_best_bins`, taken when the patience budget is exhausted: the loop
breaks, the recorded history ends in a plateau of exactly
`patience_no_change + 1` identical entries, and no earlier index is a
plateau. -/
theorem esState_step_break {p : Nat} {hist : List Nat} {v cnt : Nat}
    (hS : EsState p hist (some v) cnt) (hcnt : p ≤ cnt + 1) :
    Plateau (hist ++ [v]) p ((hist ++ [v]).length - 1) ∧
      ∀ t, t + 1 < (hist ++ [v]).length → ¬ Plateau (hist ++ [v]) p t := by
  have hnp := hS.1
  have hrest := hS.2.2 v rfl
  have hcp := hrest.1
  have hle := hrest.2.1
  have hrun := hrest.2.2.1
  have hlen2 : (hist ++ [v]).length = hist.length + 1 := by simp
  have hlast2 : (hist ++ [v]).getD hist.length 0 = v :=
    getD_append_length hist v [] 0
  constructor
  · have hidx : (hist ++ [v]).length - 1 = hist.length := by omega
    rw [hidx]
    refine ⟨by omega, by omega, ?_⟩
    intro j hj1 hj2
    rw [hlast2, getD_append_lt hist [v] j 0 hj2]
    exact hrun j (by omega) hj2
  · intro t ht
    rw [hlen2] at ht
    have hlt : t < hist.length := by omega
    rw [plateau_append hlt]
    exact hnp t hlt

/-- The history returned by the generation loop, starting from a state
with a sound early-stopping bookkeeping: at most one entry per remaining
generation is added, an early exit ends in a plateau at the final
generation, and no interior plateau is ever passed over. -/
theorem gaLoop_hist {items : List Nat} {capacidad ps : Nat} {rate : Rat}
    {p : Nat} (hp : 1 ≤ p) :
    ∀ (g : Nat) (pop : List (List Nat)) (bo : List Nat) (bbo : Nat)
      (last : Option Nat) (cnt : Nat) (hist : List Nat) (r : Rng)
      (popF : List (List Nat)) (boF histF : List Nat) (rF : Rng),
      EsState p hist last cnt →
      gaLoop items capacidad ps rate p g pop bo bbo last cnt hist r =
        some (popF, boF, histF, rF) →
      histF.length ≤ hist.length + g ∧
        (histF.length < hist.length + g → Plateau histF p (histF.length - 1)) ∧
        ∀ t, t + 1 < histF.length → ¬ Plateau histF p t := by
  intro g
  induction g with
  | zero =>
      intro pop bo bbo last cnt hist r popF boF histF rF hS h
      simp only [gaLoop, Option.some.injEq] at h
      have h3 : hist = histF := congrArg (fun t => t.2.2.1) h
      subst h3
      refine ⟨Nat.le_refl _, fun hlt => absurd hlt (by omega), ?_⟩
      intro t ht
      exact hS.1 t (by omega)
  | succ g ih =>
      intro pop bo bbo last cnt hist r popF boF histF rF hS h
      simp only [gaLoop] at h
      cases he : minByFitness items capacidad pop with
      | none =>
          rw [he] at h
          simp only [Option.bind_eq_bind, Option.none_bind] at h
          exact Option.noConfusion h
      | some elite =>
          rw [he] at h
          simp only [Option.bind_eq_bind, Option.some_bind] at h
          cases hr : reproduce pop items capacidad rate (ps - 1) [elite] r with
          | none =>
              rw [hr] at h
              simp only [Option.bind_eq_bind, Option.none_bind] at h
              exact Option.noConfusion h
          | some pr =>
              obtain ⟨pop2, r1⟩ := pr
              rw [hr] at h
              simp only [Option.bind_eq_bind, Option.some_bind] at h
              cases hbg : minByFitness items capacidad pop2 with
              | none =>
                  rw [hbg] at h
                  simp only [Option.bind_eq_bind, Option.none_bind] at h
                  exact Option.noConfusion h
              | some best_gen =>
                  rw [hbg] at h
                  simp only [Option.bind_eq_bind, Option.some_bind] at h
                  have hlen2 : (hist ++ [(dedupFirst best_gen).length]).length =
                      hist.length + 1 := by simp
                  by_cases hlast : last = some (dedupFirst best_gen).length
                  · rw [if_pos hlast] at h
                    subst hlast
                    by_cases hcnt : p ≤ cnt + 1
                    · rw [if_pos hcnt] at h
                      simp only [Option.some.injEq] at h
                      have h3 : hist ++ [(dedupFirst best_gen).length] = histF :=
                        congrArg (fun t => t.2.2.1) h
                      obtain ⟨hpl, hnpl⟩ := esState_step_break hS hcnt
                      rw [← h3]
                      refine ⟨?_, fun _ => hpl, hnpl⟩
                      rw [hlen2]
                      omega
                    · rw [if_neg hcnt] at h
                      obtain ⟨c1, c2, c3⟩ := ih _ _ _ _ _ _ _ _ _ _ _
                        (esState_step_same hS (by omega)) h
                      rw [hlen2] at c1 c2
                      exact ⟨by omega, fun hlt => c2 (by omega), c3⟩
                  · rw [if_neg hlast] at h
                    obtain ⟨c1, c2, c3⟩ := ih _ _ _ _ _ _ _ _ _ _ _
                      (esState_step_reset hp hS _ hlast) h
                    rw [hlen2] at c1 c2
                    exact ⟨by omega, fun hlt => c2 (by omega), c3⟩

/-- **C9.** For valid GA parameters (`patience_no_change ≥ 1`), on every
successful run of `genetic_algorithm_bpp` the generation loop records
one best-of-generation bin count per iteration and runs at most
`generations` iterations; it stops before exhausting `generations`
exactly when the recorded value has just stayed literally identical over
`patience_no_change + 1` consecutive generations ending at the last one
(a plateau), and no plateau ends strictly before the last recorded
generation — any change of the value, better or worse, resets the
counter. -/
theorem genetic_early_stopping {items : List Nat} {capacidad ps gens : Nat}
    {rate : Rat} {patience : Nat} {r : Rng} {k : Nat}
    {bins : List (List Nat)} {best hist : List Nat}
    (hpat : 1 ≤ patience)
    (h : genetic_algorithm_bpp items capacidad ps gens rate patience r =
      some (k, bins, best, hist)) :
    hist.length ≤ gens ∧
      (hist.length < gens → Plateau hist patience (hist.length - 1)) ∧
      ∀ t, t + 1 < hist.length → ¬ Plateau hist patience t := by
  simp only [genetic_algorithm_bpp] at h
  cases hg : generate_population items.length ps r with
  | mk pop r1 =>
      rw [hg] at h
      simp only at h
      cases hb : minByFitness items capacidad pop with
      | none =>
          rw [hb] at h
          simp only [Option.bind_eq_bind, Option.none_bind] at h
          exact Option.noConfusion h
      | some bo =>
          rw [hb] at h
          simp only [Option.bind_eq_bind, Option.some_bind] at h
          cases hl : gaLoop items capacidad ps rate patience gens pop bo
              (dedupFirst bo).length none 0 [] r1 with
          | none =>
              rw [hl] at h
              simp only [Option.bind_eq_bind, Option.none_bind] at h
              exact Option.noConfusion h
          | some out =>
              obtain ⟨popF, boF, histF, rF⟩ := out
              rw [hl] at h
              simp only [Option.bind_eq_bind, Option.some_bind] at h
              cases hbest : minByFitness items capacidad (boF :: popF) with
              | none =>
                  rw [hbest] at h
                  simp only [Option.bind_eq_bind, Option.none_bind] at h
                  exact Option.noConfusion h
              | some bestv =>
                  rw [hbest] at h
                  simp only [Option.bind_eq_bind, Option.some_bind,
                    Option.some.injEq] at h
                  have hhist : histF = hist := congrArg (fun t => t.2.2.2) h
                  subst hhist
                  have hS0 : EsState patience [] none 0 :=
                    ⟨fun t ht => absurd ht (by simp),
                     fun _ => ⟨rfl, rfl⟩,
                     fun v hv => Option.noConfusion hv⟩
                  obtain ⟨c1, c2, c3⟩ := gaLoop_hist hpat gens pop bo
                    (dedupFirst bo).length none 0 [] r1 popF boF histF rF hS0 hl
                  simp only [List.length_nil] at c1 c2
                  exact ⟨by omega, fun hlt => c2 (by omega), c3⟩

/-- Claim C9 witness. -/
theorem genetic_early_stopping_witness :
    (1 : Nat) ≤ 1 ∧
      genetic_algorithm_bpp [1] 1 1 1 0 1 r0 = some (1, [[1]], [0], [1]) ∧
      (([1] : List Nat).length ≤ 1 ∧
        (([1] : List Nat).length < 1 →
          Plateau [1] 1 (([1] : List Nat).length - 1)) ∧
        ∀ t, t + 1 < ([1] : List Nat).length → ¬ Plateau [1] 1 t) :=
  ⟨by decide, by rfl,
    @genetic_early_stopping [1] 1 1 1 0 1 r0 1 [[1]] [0] [1] (by decide) (by rfl)⟩

end BinPacking
